import Mathlib

/-!
Verification of the core of the `sly` agent runtime.

Strings are modelled as lists of unicode scalar values (`Str := List Char`),
matching Rust `String`/`char`.  The byte offsets that `str::find` returns in
the source are only ever produced for ASCII needles, so occurrence positions
and the slices derived from them coincide with this character-level model.

`serde_json` is modelled by an executable JSON value type, serializer and
parser.  JSON numbers are modelled in the integer fragment: integer literals
within the `i64`/`u64` ranges parse to `Json.num`; float syntax and literals
outside those ranges (which `serde_json` reads back as `f64`) are rejected by
the model parser rather than modelled, floating point being outside the
embedding.  Object member lists keep textual order; `serde_json`'s `Value`
normalises maps, but every value produced by the program's serialisation path
is already in the modelled fragment.
-/

deriving instance DecidableEq for Except

namespace Sly

/-- Rust strings as lists of unicode scalar values. -/
abbrev Str := List Char

/-- Model of Rust `str::find(needle)`: position of the first occurrence of
`needle`, if any (`find("")` is `some 0`, as in Rust). -/
def findSub (hay needle : Str) : Option Nat :=
  if needle.isPrefixOf hay then some 0
  else
    match hay with
    | [] => none
    | _ :: t => (findSub t needle).map (· + 1)

/-- Rust `char::is_whitespace` (the Unicode White_Space property), used by
`str::trim`. -/
def isRustWs (c : Char) : Bool :=
  ([0x09, 0x0A, 0x0B, 0x0C, 0x0D, 0x20, 0x85, 0xA0, 0x1680,
    0x2028, 0x2029, 0x202F, 0x205F, 0x3000] : List Nat).contains c.toNat
  || (0x2000 ≤ c.toNat && c.toNat ≤ 0x200A)

/-- Model of Rust `str::trim`. -/
def rustTrim (s : Str) : Str :=
  ((s.dropWhile isRustWs).reverse.dropWhile isRustWs).reverse

/-- JSON insignificant whitespace (RFC 8259, what `serde_json` skips). -/
def isJsonWs (c : Char) : Bool :=
  c = ' ' || c = '\t' || c = '\n' || c = '\r'

/-- Skip JSON whitespace. -/
def skipWs (s : Str) : Str := s.dropWhile isJsonWs

mutual
/-- `serde_json::Value` in the integer fragment (see the module docstring). -/
inductive Json where
  | null : Json
  | bool (b : Bool) : Json
  | num (n : Int) : Json
  | str (s : Str) : Json
  | arr (elems : JArr) : Json
  | obj (mems : JObj) : Json
  deriving DecidableEq
/-- A JSON array's element list. -/
inductive JArr where
  | nil : JArr
  | cons (hd : Json) (tl : JArr) : JArr
  deriving DecidableEq
/-- A JSON object's member list, in textual order. -/
inductive JObj where
  | nil : JObj
  | cons (key : Str) (val : Json) (tl : JObj) : JObj
  deriving DecidableEq
end

/-- Decimal digit character. -/
def digitChar (n : Nat) : Char := Char.ofNat (48 + n)

/-- Decimal digits of a natural number, most significant first. -/
def natDigits (n : Nat) : Str :=
  if _h : n < 10 then [digitChar n]
  else natDigits (n / 10) ++ [digitChar (n % 10)]
termination_by n
decreasing_by exact Nat.div_lt_self (by omega) (by omega)

/-- Serialization of an integer (as `itoa` writes `i64`/`u64` values). -/
def serInt (n : Int) : Str :=
  if n < 0 then '-' :: natDigits (-n).toNat else natDigits n.toNat

/-- Lowercase hex digit character (as `serde_json` emits in `\u` escapes). -/
def hexChar (n : Nat) : Char :=
  if n < 10 then Char.ofNat (48 + n) else Char.ofNat (87 + n)

/-- `serde_json`'s escaping of a single character inside a string literal:
`"`, `\` and the control characters below 0x20 are escaped (the latter with
short escapes where they exist, else `\u00XX`); everything else is verbatim. -/
def escChar (c : Char) : Str :=
  if c = '"' then ['\\', '"']
  else if c = '\\' then ['\\', '\\']
  else if c = '\x08' then ['\\', 'b']
  else if c = '\t' then ['\\', 't']
  else if c = '\n' then ['\\', 'n']
  else if c = '\x0c' then ['\\', 'f']
  else if c = '\r' then ['\\', 'r']
  else if c.toNat < 0x20 then
    ['\\', 'u', '0', '0', hexChar (c.toNat / 16), hexChar (c.toNat % 16)]
  else [c]

/-- Escaped body of a JSON string literal. -/
def serStrBody : Str → Str
  | [] => []
  | c :: cs => escChar c ++ serStrBody cs

mutual
/-- Compact serialization, as `serde_json::to_string` renders a value. -/
def serJson : Json → Str
  | .null => ['n', 'u', 'l', 'l']
  | .bool true => "true".toList
  | .bool false => "false".toList
  | .num n => serInt n
  | .str s => '"' :: serStrBody s ++ ['"']
  | .arr a => '[' :: serArr a ++ [']']
  | .obj o => '{' :: serObj o ++ ['}']
/-- Comma-separated serialization of array elements. -/
def serArr : JArr → Str
  | .nil => []
  | .cons v .nil => serJson v
  | .cons v tl => serJson v ++ ',' :: serArr tl
/-- Comma-separated serialization of object members. -/
def serObj : JObj → Str
  | .nil => []
  | .cons k v .nil => '"' :: serStrBody k ++ '"' :: ':' :: serJson v
  | .cons k v tl =>
    ('"' :: serStrBody k ++ '"' :: ':' :: serJson v) ++ ',' :: serObj tl
end

/-- Value of a hex digit character. -/
def hexVal (c : Char) : Option Nat :=
  if '0' ≤ c ∧ c ≤ '9' then some (c.toNat - 48)
  else if 'a' ≤ c ∧ c ≤ 'f' then some (c.toNat - 87)
  else if 'A' ≤ c ∧ c ≤ 'F' then some (c.toNat - 55)
  else none

/-- Value of four hex digits. -/
def hex4 (a b c d : Char) : Option Nat := do
  let x ← hexVal a
  let y ← hexVal b
  let z ← hexVal c
  let w ← hexVal d
  pure (((x * 16 + y) * 16 + z) * 16 + w)

/-- Parse the body of a JSON string literal (after the opening quote),
returning the decoded string and the remainder after the closing quote.
Handles the JSON escapes including `\uXXXX` with surrogate pairs; raw control
characters and lone surrogates are errors, as in `serde_json`.  Fuelled: one
unit per consumed escape group, so any fuel exceeding the input length is
sufficient; callers pass the input length plus one. -/
def parseStrBody : Nat → Str → Option (Str × Str)
  | 0, _ => none
  | _ + 1, [] => none
  | fuel + 1, c :: rest =>
    if c = '"' then some ([], rest)
    else if c = '\\' then
      match rest with
      | [] => none
      | e :: rest2 =>
        if e = '"' then (parseStrBody fuel rest2).map (fun p => ('"' :: p.1, p.2))
        else if e = '\\' then (parseStrBody fuel rest2).map (fun p => ('\\' :: p.1, p.2))
        else if e = '/' then (parseStrBody fuel rest2).map (fun p => ('/' :: p.1, p.2))
        else if e = 'b' then (parseStrBody fuel rest2).map (fun p => ('\x08' :: p.1, p.2))
        else if e = 'f' then (parseStrBody fuel rest2).map (fun p => ('\x0c' :: p.1, p.2))
        else if e = 'n' then (parseStrBody fuel rest2).map (fun p => ('\n' :: p.1, p.2))
        else if e = 'r' then (parseStrBody fuel rest2).map (fun p => ('\r' :: p.1, p.2))
        else if e = 't' then (parseStrBody fuel rest2).map (fun p => ('\t' :: p.1, p.2))
        else if e = 'u' then
          match rest2 with
          | h1 :: h2 :: h3 :: h4 :: rest3 =>
            match hex4 h1 h2 h3 h4 with
            | none => none
            | some code =>
              if 0xD800 ≤ code ∧ code ≤ 0xDBFF then
                match rest3 with
                | '\\' :: 'u' :: g1 :: g2 :: g3 :: g4 :: rest4 =>
                  match hex4 g1 g2 g3 g4 with
                  | some low =>
                    if 0xDC00 ≤ low ∧ low ≤ 0xDFFF then
                      (parseStrBody fuel rest4).map (fun p =>
                        (Char.ofNat (0x10000 + (code - 0xD800) * 0x400 + (low - 0xDC00)) :: p.1,
                          p.2))
                    else none
                  | none => none
                | _ => none
              else if 0xDC00 ≤ code ∧ code ≤ 0xDFFF then none
              else (parseStrBody fuel rest3).map (fun p => (Char.ofNat code :: p.1, p.2))
          | _ => none
        else none
    else if c.toNat < 0x20 then none
    else (parseStrBody fuel rest).map (fun p => (c :: p.1, p.2))

/-- Numeric value of a digit string. -/
def digsToNat (ds : Str) : Nat :=
  ds.foldl (fun a c => a * 10 + (c.toNat - 48)) 0

/-- Build the parsed integer, enforcing the `i64`/`u64` ranges that
`serde_json` parses integer literals into (outside them `serde_json` falls
back to `f64`, which the integer fragment rejects). -/
def numFromDigits (neg : Bool) (digs : Str) (rest : Str) : Option (Json × Str) :=
  let v := digsToNat digs
  if neg then
    if v ≤ 2 ^ 63 then some (.num (-(v : Int)), rest) else none
  else
    if v < 2 ^ 64 then some (.num (v : Int), rest) else none

/-- Parse a JSON number token in the integer fragment: optional minus, digits
without redundant leading zero; a following `.`/`e`/`E` (float syntax) is
rejected. -/
def parseNum (s : Str) : Option (Json × Str) :=
  let p : Bool × Str := if s.head? = some '-' then (true, s.tail) else (false, s)
  let digs := p.2.takeWhile (fun c => '0' ≤ c && c ≤ '9')
  let rest := p.2.dropWhile (fun c => '0' ≤ c && c ≤ '9')
  if digs = [] then none
  else if digs.length > 1 ∧ digs.head? = some '0' then none
  else
    match rest with
    | c :: _ =>
      if c = '.' ∨ c = 'e' ∨ c = 'E' then none
      else numFromDigits p.1 digs rest
    | [] => numFromDigits p.1 digs []

mutual
/-- Recursive-descent JSON value parser (whitespace-tolerant, as
`serde_json::from_str`), fuelled: every recursive call spends one unit, and
`fromStr` supplies more fuel than any parse can consume. -/
def parseValue : Nat → Str → Option (Json × Str)
  | 0, _ => none
  | fuel + 1, s =>
    match skipWs s with
    | [] => none
    | c :: rest =>
      if c = 'n' then
        match rest with
        | 'u' :: 'l' :: 'l' :: r => some (.null, r)
        | _ => none
      else if c = 't' then
        match rest with
        | 'r' :: 'u' :: 'e' :: r => some (.bool true, r)
        | _ => none
      else if c = 'f' then
        match rest with
        | 'a' :: 'l' :: 's' :: 'e' :: r => some (.bool false, r)
        | _ => none
      else if c = '"' then
        (parseStrBody (rest.length + 1) rest).map (fun p => (.str p.1, p.2))
      else if c = '[' then
        match skipWs rest with
        | ']' :: r => some (.arr .nil, r)
        | s1 => (parseElems fuel s1).map (fun p => (.arr p.1, p.2))
      else if c = '{' then
        match skipWs rest with
        | '}' :: r => some (.obj .nil, r)
        | s1 => (parseMems fuel s1).map (fun p => (.obj p.1, p.2))
      else if c = '-' ∨ ('0' ≤ c ∧ c ≤ '9') then parseNum (c :: rest)
      else none
/-- Parse one or more comma-separated array elements up to `]`. -/
def parseElems : Nat → Str → Option (JArr × Str)
  | 0, _ => none
  | fuel + 1, s =>
    match parseValue fuel s with
    | none => none
    | some (v, r) =>
      match skipWs r with
      | ',' :: r2 => (parseElems fuel r2).map (fun p => (.cons v p.1, p.2))
      | ']' :: r2 => some (.cons v .nil, r2)
      | _ => none
/-- Parse one or more comma-separated object members up to `RBrace`. -/
def parseMems : Nat → Str → Option (JObj × Str)
  | 0, _ => none
  | fuel + 1, s =>
    match skipWs s with
    | '"' :: r =>
      match parseStrBody (r.length + 1) r with
      | none => none
      | some (k, r1) =>
        match skipWs r1 with
        | ':' :: r2 =>
          match parseValue fuel r2 with
          | none => none
          | some (v, r3) =>
            match skipWs r3 with
            | ',' :: r4 => (parseMems fuel r4).map (fun p => (.cons k v p.1, p.2))
            | '}' :: r4 => some (.cons k v .nil, r4)
            | _ => none
        | _ => none
    | _ => none
end

/-- `serde_json::from_str` for `Value` (integer fragment): parse one value and
require only whitespace to follow, as serde rejects trailing characters. -/
def fromStr (s : Str) : Option Json :=
  match parseValue (s.length + 1) s with
  | some (v, r) => if skipWs r = [] then some v else none
  | none => none

/-- `AgentAction` from `core/parser.rs`, an internally-tagged serde enum
(`tag = "directive"`, PascalCase variant names).  `CallTool.arguments` is a
raw `serde_json::Value`; `UseSkill.args` is a `Vec<i32>`. -/
inductive AgentAction where
  | WriteFile (path content : Str)
  | ExecShell (command context : Str)
  | QueryMemory (query : Str) (strategy : Option Str)
  | CommitOverlay (message : Str)
  | CallTool (tool_name : Str) (arguments : Json)
  | UseSkill (name : Str) (args : List Int)
  | QueryDatalog (script : Str)
  | Answer (text : Str)
  deriving DecidableEq

/-- First value bound to `key` in an object member list (the canonical inputs
decoded in this development never carry duplicate keys, on which serde's
direct deserializer errors instead). -/
def lookupJ : JObj → Str → Option Json
  | .nil, _ => none
  | .cons k v tl, key => if k = key then some v else lookupJ tl key

/-- A member-list value as a string field. -/
def asStr (v : Option Json) : Option Str :=
  match v with
  | some (.str s) => some s
  | _ => none

/-- Decode a JSON array of integers as a `Vec<i32>`, enforcing the `i32`
range as serde does. -/
def asI32List : JArr → Option (List Int)
  | .nil => some []
  | .cons (.num n) tl =>
    if -(2 ^ 31) ≤ n ∧ n < 2 ^ 31 then (asI32List tl).map (n :: ·) else none
  | .cons _ _ => none

/-- serde's deserialization of the internally-tagged `AgentAction` from a
JSON value: requires an object whose `"directive"` member names a variant,
reads the variant's fields by name (missing non-`Option` field fails, extra
fields are ignored). -/
def decodeAction (v : Json) : Option AgentAction :=
  match v with
  | .obj mems =>
    match lookupJ mems "directive".toList with
    | some (.str tag) =>
      if tag = "WriteFile".toList then
        match asStr (lookupJ mems "path".toList), asStr (lookupJ mems "content".toList) with
        | some p, some c => some (.WriteFile p c)
        | _, _ => none
      else if tag = "ExecShell".toList then
        match asStr (lookupJ mems "command".toList), asStr (lookupJ mems "context".toList) with
        | some c, some x => some (.ExecShell c x)
        | _, _ => none
      else if tag = "QueryMemory".toList then
        match asStr (lookupJ mems "query".toList) with
        | some q =>
          match lookupJ mems "strategy".toList with
          | none => some (.QueryMemory q none)
          | some .null => some (.QueryMemory q none)
          | some (.str s) => some (.QueryMemory q (some s))
          | some _ => none
        | none => none
      else if tag = "CommitOverlay".toList then
        match asStr (lookupJ mems "message".toList) with
        | some m => some (.CommitOverlay m)
        | none => none
      else if tag = "CallTool".toList then
        match asStr (lookupJ mems "tool_name".toList), lookupJ mems "arguments".toList with
        | some n, some args => some (.CallTool n args)
        | _, _ => none
      else if tag = "UseSkill".toList then
        match asStr (lookupJ mems "name".toList), lookupJ mems "args".toList with
        | some n, some (.arr a) =>
          match asI32List a with
          | some xs => some (.UseSkill n xs)
          | none => none
        | _, _ => none
      else if tag = "QueryDatalog".toList then
        match asStr (lookupJ mems "script".toList) with
        | some s => some (.QueryDatalog s)
        | none => none
      else if tag = "Answer".toList then
        match asStr (lookupJ mems "text".toList) with
        | some t => some (.Answer t)
        | none => none
      else none
    | _ => none
  | _ => none

/-- Decode a JSON array element-wise as a `Vec<AgentAction>` (one failing
element fails the whole vector, as serde does). -/
def decodeActionList : JArr → Option (List AgentAction)
  | .nil => some []
  | .cons v tl =>
    match decodeAction v with
    | some a => (decodeActionList tl).map (a :: ·)
    | none => none

/-- `serde_json::from_str::<AgentAction>`. -/
def fromStrSingle (s : Str) : Option AgentAction :=
  (fromStr s).bind decodeAction

/-- `serde_json::from_str::<Vec<AgentAction>>`. -/
def fromStrVec (s : Str) : Option (List AgentAction) :=
  (fromStr s).bind fun v =>
    match v with
    | .arr a => decodeActionList a
    | _ => none

/-- serde's serialization of one `AgentAction` (tag member first, then the
variant's fields in declaration order, `Option::None` as `null`). -/
def encodeAction : AgentAction → Json
  | .WriteFile p c =>
    .obj (.cons "directive".toList (.str "WriteFile".toList)
      (.cons "path".toList (.str p) (.cons "content".toList (.str c) .nil)))
  | .ExecShell c x =>
    .obj (.cons "directive".toList (.str "ExecShell".toList)
      (.cons "command".toList (.str c) (.cons "context".toList (.str x) .nil)))
  | .QueryMemory q st =>
    .obj (.cons "directive".toList (.str "QueryMemory".toList)
      (.cons "query".toList (.str q)
        (.cons "strategy".toList (match st with | some s => .str s | none => .null) .nil)))
  | .CommitOverlay m =>
    .obj (.cons "directive".toList (.str "CommitOverlay".toList)
      (.cons "message".toList (.str m) .nil))
  | .CallTool n args =>
    .obj (.cons "directive".toList (.str "CallTool".toList)
      (.cons "tool_name".toList (.str n) (.cons "arguments".toList args .nil)))
  | .UseSkill n xs =>
    .obj (.cons "directive".toList (.str "UseSkill".toList)
      (.cons "name".toList (.str n)
        (.cons "args".toList (.arr (xs.foldr (fun x a => .cons (.num x) a) .nil)) .nil)))
  | .QueryDatalog s =>
    .obj (.cons "directive".toList (.str "QueryDatalog".toList)
      (.cons "script".toList (.str s) .nil))
  | .Answer t =>
    .obj (.cons "directive".toList (.str "Answer".toList)
      (.cons "text".toList (.str t) .nil))

/-- serde's serialization of a `Vec<AgentAction>` as a JSON array value. -/
def encodeActs (acts : List AgentAction) : Json :=
  .arr (acts.foldr (fun a t => .cons (encodeAction a) t) .nil)

/-- The single-```json-fenced-array rendering of an action list that the
round-trip law quantifies over. -/
def renderActs (acts : List AgentAction) : Str :=
  "```json\n".toList ++ serJson (encodeActs acts) ++ "\n```".toList

/-- Loop A of `parse_action`: scan for every ```json fenced block, trying
each block first as an action array, then as a single action; blocks that
parse as neither contribute nothing.  Fuelled: each iteration of the source's
`while` advances `start_idx` past the 10-character pair of fences, so the
`s.length + 1` fuel `scanJsonBlocks` supplies is never exhausted. -/
def scanJsonBlocksF : Nat → Str → List AgentAction
  | 0, _ => []
  | fuel + 1, s =>
    match findSub s "```json".toList with
    | none => []
    | some i =>
      let afterStart := s.drop (i + 7)
      match findSub afterStart "```".toList with
      | none => []
      | some j =>
        let body := rustTrim (afterStart.take j)
        let acts :=
          match fromStrVec body with
          | some acc => acc
          | none =>
            match fromStrSingle body with
            | some a => [a]
            | none => []
        acts ++ scanJsonBlocksF fuel (afterStart.drop (j + 3))

/-- Loop A of `parse_action` at its entry point. -/
def scanJsonBlocks (s : Str) : List AgentAction :=
  scanJsonBlocksF (s.length + 1) s

/-- Loop B of `parse_action` (runs only when loop A found nothing): scan for
generic ``` fences, skipping ```json ones, trying each block first as a
single action, then as an array (the reverse of loop A's order). -/
def scanGenericBlocksF : Nat → Str → List AgentAction
  | 0, _ => []
  | fuel + 1, s =>
    match findSub s "```".toList with
    | none => []
    | some i =>
      if "```json".toList.isPrefixOf (s.drop i) then
        scanGenericBlocksF fuel (s.drop (i + 7))
      else
        let afterStart := s.drop (i + 3)
        match findSub afterStart "```".toList with
        | none => []
        | some j =>
          let body := rustTrim (afterStart.take j)
          let acts :=
            match fromStrSingle body with
            | some a => [a]
            | none =>
              match fromStrVec body with
              | some acc => acc
              | none => []
          acts ++ scanGenericBlocksF fuel (afterStart.drop (j + 3))

/-- Loop B of `parse_action` at its entry point. -/
def scanGenericBlocks (s : Str) : List AgentAction :=
  scanGenericBlocksF (s.length + 1) s

/-- `parse_action` from `core/parser.rs`: scan ```json blocks, then (if none
parsed) generic ``` blocks, then (if still nothing) try the trimmed response
whole when it looks like JSON, and finally fall back to a single `Answer`
carrying the entire response.  The `Err` return for JSON-looking strings that
match nothing is commented out in the source, so every branch returns `Ok`. -/
def parse_action (response : Str) : Except Str (List AgentAction) :=
  let a1 := scanJsonBlocks response
  let actions := if a1.isEmpty then scanGenericBlocks response else a1
  if actions.isEmpty = false then .ok actions
  else
    let trimmed := rustTrim response
    if trimmed.head? = some '{' ∨ trimmed.head? = some '[' then
      match fromStrSingle trimmed with
      | some a => .ok [a]
      | none =>
        match fromStrVec trimmed with
        | some acts => .ok acts
        | none => .ok [.Answer response]
    else .ok [.Answer response]

/-! ## Filesystem and overlay model (`safety/overlay.rs`, `core/fs.rs`)

A `std::path` path is a flag for absoluteness plus its components; `join`,
`starts_with` and `strip_prefix` follow the component semantics of
`std::path::Path` (an absolute argument to `join` replaces the base; prefix
tests match whole components and require equal absoluteness).  `.`/`..`
normalisation is not modelled: the source compares components literally too.

The filesystem is a finite map from absolute component paths to file
contents plus a set of directories (the root `[]` always exists).  Mutating
primitives return the (possibly unchanged) state together with an
`Except`-style result, so "this call has no side effect" is expressible. -/

/-- A `std::path::Path`: absoluteness flag and components. -/
structure RPath where
  abs : Bool
  comps : List String
  deriving DecidableEq

/-- `Path::join`: an absolute right-hand side replaces the base. -/
def RPath.join (p q : RPath) : RPath :=
  if q.abs then q else ⟨p.abs, p.comps ++ q.comps⟩

/-- `Path::starts_with`, matching whole components. -/
def RPath.startsWith (p base : RPath) : Bool :=
  p.abs == base.abs && base.comps.isPrefixOf p.comps

/-- `Path::strip_prefix`, yielding the relative remainder. -/
def RPath.stripPref (p base : RPath) : Option RPath :=
  if p.startsWith base then some ⟨false, p.comps.drop base.comps.length⟩ else none

/-- `Path::parent` (`none` at a root). -/
def RPath.parent (p : RPath) : Option RPath :=
  match p.comps with
  | [] => none
  | _ => some ⟨p.abs, p.comps.dropLast⟩

/-- The filesystem: files (absolute component path to content) and the set of
explicitly existing directories. -/
structure FsState where
  files : List (List String × Str)
  dirs : List (List String)
  deriving DecidableEq

/-- Content of the file at `p`, if one exists. -/
def lookupFile (s : FsState) (p : List String) : Option Str :=
  List.lookup p s.files

/-- A directory exists if it is the root or was created. -/
def dirExists (s : FsState) (p : List String) : Bool :=
  p.isEmpty || s.dirs.contains p

/-- `Path::exists`: a file or directory is present at `p`. -/
def pathExists (s : FsState) (p : List String) : Bool :=
  (lookupFile s p).isSome || dirExists s p

/-- Insert or replace the file at `p`. -/
def setFile (s : FsState) (p : List String) (c : Str) : FsState :=
  { s with files := (p, c) :: s.files.filter (fun e => !(e.1 == p)) }

/-- `fs::read_to_string`. -/
def fsRead (s : FsState) (p : List String) : Except String Str :=
  match lookupFile s p with
  | some c => .ok c
  | none => .error "No such file"

/-- `fs::write`: fails on a directory or a missing parent, else creates or
replaces the file. -/
def fsWrite (s : FsState) (p : List String) (c : Str) : FsState × Except String Unit :=
  if dirExists s p then (s, .error "Is a directory")
  else if dirExists s p.dropLast then (setFile s p c, .ok ())
  else (s, .error "No such file or directory")

/-- `fs::create_dir_all`: record every ancestor of `p` as a directory;
fails if some ancestor is a file. -/
def createDirAll (s : FsState) (p : List String) : FsState × Except String Unit :=
  if p.inits.any (fun q => (lookupFile s q).isSome) then (s, .error "File exists")
  else
    ({ s with dirs := p.inits.foldl (fun ds q => if ds.contains q then ds else q :: ds) s.dirs },
      .ok ())

/-- `fs::copy`: read the source file, write it at the destination. -/
def fsCopy (s : FsState) (src dst : List String) : FsState × Except String Unit :=
  match lookupFile s src with
  | none => (s, .error "No such file")
  | some c => fsWrite s dst c

/-- The names of the immediate children of directory `p` (what `read_dir`
enumerates), first occurrence order, without duplicates. -/
def childNames (s : FsState) (p : List String) : List String :=
  ((s.files.map (·.1) ++ s.dirs).filterMap
    (fun q => if p.isPrefixOf q ∧ p.length < q.length then (q.drop p.length).head? else none)).dedup

/-- `OverlayFS`: the real workspace root and the staging directory. -/
structure OverlayFS where
  base_dir : RPath
  overlay_dir : RPath
  deriving DecidableEq

/-- `OverlayFS::get_relative_path`: an absolute input must be prefixed by
`base_dir` (else the call fails with the out-of-workspace error); a relative
input is returned as is. -/
def get_relative_path (o : OverlayFS) (p : RPath) : Except String RPath :=
  if p.abs then
    if p.startsWith o.base_dir then
      match p.stripPref o.base_dir with
      | some r => .ok r
      | none => .error "strip_prefix failed"
    else .error "Path is outside base directory"
  else .ok p

/-- `OverlayFS::read_file`: overlay first, then base, else an error. -/
def read_file (s : FsState) (o : OverlayFS) (p : RPath) : Except String Str :=
  match get_relative_path o p with
  | .error e => .error e
  | .ok rel =>
    let op := o.overlay_dir.join rel
    if pathExists s op.comps then fsRead s op.comps
    else
      let bp := o.base_dir.join rel
      if pathExists s bp.comps then fsRead s bp.comps
      else .error "File not found in overlay or base"

/-- `OverlayFS::write_file`: always into the overlay, creating missing
parent directories first. -/
def write_file (s : FsState) (o : OverlayFS) (p : RPath) (c : Str) :
    FsState × Except String Unit :=
  match get_relative_path o p with
  | .error e => (s, .error e)
  | .ok rel =>
    let op := o.overlay_dir.join rel
    match op.parent with
    | some par =>
      match createDirAll s par.comps with
      | (s1, .ok _) => fsWrite s1 op.comps c
      | (s1, .error e) => (s1, .error e)
    | none => fsWrite s op.comps c

mutual
/-- `OverlayFS::copy_dir_recursive`: create `dst` when missing, then copy
each entry of `src` (directories recursively, files by `fs::copy`).
Fuelled: the recursion depth is the directory nesting depth under `src`,
which the fuel `commit` supplies always exceeds. -/
def copyDirRec : Nat → FsState → List String → List String → FsState × Except String Unit
  | 0, s, _, _ => (s, .error "recursion depth exhausted")
  | fuel + 1, s, src, dst =>
    match (if pathExists s dst then (s, Except.ok ()) else createDirAll s dst) with
    | (s1, .error e) => (s1, .error e)
    | (s1, .ok _) => copyEntries fuel s1 src dst (childNames s1 src)
termination_by fuel => (fuel, 0)
/-- Copy the listed entries of `src` into `dst` one by one, stopping at the
first error. -/
def copyEntries : Nat → FsState → List String → List String → List String →
    FsState × Except String Unit
  | _, s, _, _, [] => (s, .ok ())
  | fuel, s, src, dst, n :: rest =>
    if s.dirs.contains (src ++ [n]) then
      match copyDirRec fuel s (src ++ [n]) (dst ++ [n]) with
      | (s1, .ok _) => copyEntries fuel s1 src dst rest
      | e => e
    else
      match fsCopy s (src ++ [n]) (dst ++ [n]) with
      | (s1, .ok _) => copyEntries fuel s1 src dst rest
      | e => e
termination_by fuel _ _ _ names => (fuel, names.length + 1)
end

/-- Upper bound on any path length present in the state (plus one): strictly
more than the nesting depth of any directory tree in `s`, so `commit` never
exhausts its fuel. -/
def maxPathFuel (s : FsState) : Nat :=
  (s.files.map (·.1.length) ++ s.dirs.map (·.length)).foldr max 0 + 1

/-- `OverlayFS::commit`: recursively copy the overlay directory onto the
base directory, replacing files; the overlay directory is not removed. -/
def commit (s : FsState) (o : OverlayFS) : FsState × Except String Unit :=
  copyDirRec (maxPathFuel s) s o.overlay_dir.comps o.base_dir.comps

/-- `OverlayFS::rollback`: remove the overlay directory and its contents. -/
def rollback (s : FsState) (o : OverlayFS) : FsState :=
  { files := s.files.filter (fun e => !(o.overlay_dir.comps.isPrefixOf e.1)),
    dirs := s.dirs.filter (fun d => !(o.overlay_dir.comps.isPrefixOf d)) }

/-- `FileSystemAction` from `core/fs.rs`. -/
inductive FileSystemAction where
  | Write (path : RPath) (content : Str)
  | Delete (path : RPath)
  deriving DecidableEq

/-- `core/fs.rs::map_to_overlay`: map a user path to its physical path in
the overlay, refusing absolute paths outside `base_dir`. -/
def map_to_overlay (base_dir overlay_dir : RPath) (p : RPath) : Except String RPath :=
  if p.abs then
    if p.startsWith base_dir then
      match p.stripPref base_dir with
      | some r => .ok (overlay_dir.join r)
      | none => .error "strip_prefix failed"
    else .error "Path is outside base directory"
  else .ok (overlay_dir.join p)

/-- `fs::remove_file`. -/
def removeFile (s : FsState) (p : List String) : FsState :=
  { s with files := s.files.filter (fun e => !(e.1 == p)) }

/-- `fs::remove_dir_all`. -/
def removeDirAll (s : FsState) (p : List String) : FsState :=
  { files := s.files.filter (fun e => !(p.isPrefixOf e.1)),
    dirs := s.dirs.filter (fun d => !(p.isPrefixOf d)) }

/-- `core/fs.rs::execute_action`: apply a `FileSystemAction` to the physical
overlay (deletes only shadow the overlay; no tombstone is recorded). -/
def execute_action (s : FsState) (o : OverlayFS) (a : FileSystemAction) :
    FsState × Except String Unit :=
  match a with
  | .Write p c =>
    match map_to_overlay o.base_dir o.overlay_dir p with
    | .error e => (s, .error e)
    | .ok op =>
      match op.parent with
      | some par =>
        match createDirAll s par.comps with
        | (s1, .ok _) => fsWrite s1 op.comps c
        | (s1, .error e) => (s1, .error e)
      | none => fsWrite s op.comps c
  | .Delete p =>
    match map_to_overlay o.base_dir o.overlay_dir p with
    | .error e => (s, .error e)
    | .ok op =>
      if pathExists s op.comps then
        if s.dirs.contains op.comps then (removeDirAll s op.comps, .ok ())
        else (removeFile s op.comps, .ok ())
      else (s, .ok ())

/-! ## Session state machine (`core/session.rs`, `core/agent.rs`)

`step_agent_session`'s external effects are parametrised: the LLM facade,
the tool registry and the shell are oracles in a `StepEnv`; the session store
is a finite map threaded through the step.  The returned `StepOutcome`
additionally records whether the LLM was invoked and the exact arguments of
every `update_session` call, so "no write happened" is a provable statement
and not an artefact of the state representation. -/

/-- `SessionStatus` from `core/session.rs`. -/
inductive SessionStatus where
  | Idle
  | Thinking
  | AwaitingObservation
  | Completed
  | Error (msg : Str)
  deriving DecidableEq

/-- `AgentSession` from `core/session.rs`. -/
structure AgentSession where
  id : String
  messages : List Str
  depth : Nat
  status : SessionStatus
  deriving DecidableEq

/-- `AgentSession::with_message`. -/
def AgentSession.with_message (s : AgentSession) (msg : Str) : AgentSession :=
  { s with messages := s.messages ++ [msg] }

/-- `AgentSession::with_depth_increment`. -/
def AgentSession.with_depth_increment (s : AgentSession) : AgentSession :=
  { s with depth := s.depth + 1 }

/-- `AgentSession::with_status`. -/
def AgentSession.with_status (s : AgentSession) (st : SessionStatus) : AgentSession :=
  { s with status := st }

/-- The persisted `sessions` table: id to session value. -/
abbrev SessionStore := List (String × AgentSession)

/-- `Memory::get_session`. -/
def get_session (store : SessionStore) (sid : String) : Option AgentSession :=
  List.lookup sid store

/-- `Memory::update_session`: replace the row keyed by the session's id
(insert when absent — the store's `:put` upserts). -/
def update_session (store : SessionStore) (s : AgentSession) : SessionStore :=
  if (List.lookup s.id store).isSome then
    store.map (fun e => if e.1 == s.id then (e.1, s) else e)
  else store ++ [(s.id, s)]

/-- The oracles a step may consult: the LLM facade (`Cortex::generate`), the
rendered tool definitions, the tool registry (`call_mcp_tool`) and the shell
(exit code, stdout, stderr — or a spawn error). -/
structure StepEnv where
  llm : Str → Except Str Str
  tool_defs : Str
  tool : Str → Json → Except Str Str
  shell : Str → Except Str (Int × Str × Str)

/-- The prompt `step_agent_session` materialises: the joined messages, plus
(on the first step only) the tool definitions when non-empty and the
knowledge-graph schema hint. -/
def promptOf (env : StepEnv) (session : AgentSession) : Str :=
  let full := List.intercalate "\n\n".toList session.messages
  if session.depth = 0 then
    (if env.tool_defs.isEmpty then full else full ++ "\n\n".toList ++ env.tool_defs)
      ++ "\n\n## KNOWLEDGE GRAPH SCHEMA (Datalog Ready)\nNodes: `nodes { id => content, type, path, embedding }`\nEdges: `edges { parent => child }`\n".toList
  else full

/-- `PathBuf::from` on the strings carried by actions: split on `/`,
absolute when leading `/` (empty segments drop, as `Path` normalises
separators). -/
def strToRPath (s : Str) : RPath :=
  ⟨s.head? = some '/', (s.splitOn '/').filterMap
    (fun seg => if seg.isEmpty then none else some (String.mk seg))⟩

/-- `handle_action` from `core/agent.rs`: execute one parsed action against
the session (functional update), the overlay filesystem and the oracles,
returning the new session and filesystem. -/
def handle_action (env : StepEnv) (a : AgentAction) (session : AgentSession)
    (fs : FsState) (ov : OverlayFS) : AgentSession × FsState :=
  match a with
  | .CallTool tool_name arguments =>
    match env.tool tool_name arguments with
    | .ok out =>
      (session.with_message ("**Observation (Tool '".toList ++ tool_name
        ++ "'):**\n```json\n".toList ++ out ++ "\n```".toList), fs)
    | .error e =>
      (session.with_message ("**Observation (Error from '".toList ++ tool_name
        ++ "'):**\n".toList ++ e), fs)
  | .WriteFile path content =>
    match execute_action fs ov (.Write (strToRPath path) content) with
    | (fs1, .ok _) =>
      (session.with_message "**Observation:** Action successfully executed in OverlayFS.".toList,
        fs1)
    | (fs1, .error e) =>
      (session.with_message ("**Observation (Error):** Failed to execute action: ".toList
        ++ e.toList), fs1)
  | .ExecShell command _ =>
    match env.shell command with
    | .ok out =>
      (session.with_message ("**Observation (Shell '".toList ++ command ++ "'):**\n```\n".toList
        ++ ("Exit Code: ".toList ++ serInt out.1 ++ "\nSTDOUT:\n".toList ++ out.2.1
          ++ "\nSTDERR:\n".toList ++ out.2.2) ++ "\n```".toList), fs)
    | .error e =>
      (session.with_message ("**Observation (Error):** Command '".toList ++ command
        ++ "' failed: ".toList ++ e), fs)
  | .QueryMemory _ _ =>
    (session.with_message
      "**Observation:** Memory query not yet implemented in unbundled OODA step.".toList, fs)
  | .CommitOverlay _ =>
    match commit fs ov with
    | (fs1, .ok _) =>
      ((session.with_message
          "**Observation:** Overlay committed to workspace successfully.".toList).with_status
        .Completed, fs1)
    | (fs1, .error e) =>
      (session.with_message ("**Observation (Commit Error):** ".toList ++ e.toList), fs1)
  | .Answer _ => (session.with_status .Completed, fs)
  | _ => (session, fs)

/-- What one `step_agent_session` call produced: the session store and
filesystem after the step, whether `cortex.generate` was invoked, and the
argument of every `update_session` call made, in order. -/
structure StepOutcome where
  store : SessionStore
  fs : FsState
  llm_invoked : Bool
  session_writes : List AgentSession
  deriving DecidableEq

/-- The message header prepended to the model response when it is appended
to the session. -/
def stepHeader (depth : Nat) (response : Str) : Str :=
  "**Sly (Step ".toList ++ natDigits depth ++ "):**\n".toList ++ response

/-- `step_agent_session` from `core/agent.rs`: load the session (absent:
return), enforce the depth cap (reached: return), build the prompt, invoke
the LLM (failure: log and return without touching the store), append the
response and bump the depth, parse and execute the actions in order, and
persist the final session with the step's single `update_session`. -/
def step_agent_session (env : StepEnv) (store : SessionStore) (fs : FsState)
    (ov : OverlayFS) (sid : String) (max_loops : Nat) : StepOutcome :=
  match get_session store sid with
  | none => ⟨store, fs, false, []⟩
  | some session =>
    if session.depth ≥ max_loops then ⟨store, fs, false, []⟩
    else
      match env.llm (promptOf env session) with
      | .error _ => ⟨store, fs, true, []⟩
      | .ok response =>
        let session1 := (session.with_message
          (stepHeader session.depth response)).with_depth_increment
        match parse_action response with
        | .ok actions =>
          let final := actions.foldl
            (fun (acc : AgentSession × FsState) a => handle_action env a acc.1 acc.2 ov)
            (session1, fs)
          ⟨update_session store final.1, final.2, true, [final.1]⟩
        | .error e =>
          let session2 := session1.with_status (.Error e)
          ⟨update_session store session2, fs, true, [session2]⟩

/-! ## Directive bus, impulse routing and the event loop
(`core/bus.rs`, `core/loop.rs`, `core/interpreter.rs`)

The handler registry maps directive type names to the handler structs
registered at startup; `dispatch`'s modelled portion is the registry lookup,
whose failure is the "no handler registered" error the claims are about
(executing a found handler is the session/ingestion model above). -/

/-- `Impulse` from `io/events.rs` (a `notify::Event` carries its paths). -/
inductive Impulse where
  | InitiateSession (input : String)
  | ThinkStep (session_id : String)
  | Observation (session_id obs : String)
  | FileSystemEvent (paths : List String)
  | SwarmSignal (worker_id : Nat) (status : String)
  | BootstrapSkills
  | JanitorWakeup
  | SystemInterrupt
  | Error (message : String)
  deriving DecidableEq

/-- `Directive` from `core/directives.rs`. -/
structure Directive where
  type_name : String
  payload : Json
  deriving DecidableEq

/-- The handler structs of `core/interpreter.rs`. -/
inductive Handler where
  | InitiateSessionHandler
  | ThinkHandler
  | ObserveHandler
  | IngestFileHandler
  | FsBatchHandler
  | BootstrapSkillsHandler
  | ShutdownHandler
  deriving DecidableEq

/-- The `DirectiveBus` handler registry (`HashMap<String, Box<dyn
DirectiveHandler>>`): an association list with distinct keys. -/
abbrev Bus := List (String × Handler)

/-- `DirectiveBus::register`: insert or replace under `name`. -/
def Bus.register (bus : Bus) (name : String) (h : Handler) : Bus :=
  if (List.lookup name bus).isSome then
    bus.map (fun e => if e.1 == name then (e.1, h) else e)
  else (name, h) :: bus

/-- The handler-lookup step of `DirectiveBus::dispatch`: the found handler,
or the unknown-type error. -/
def Bus.dispatch (bus : Bus) (name : String) : Except String Handler :=
  match List.lookup name bus with
  | some h => .ok h
  | none => .error ("No handler registered for directive: " ++ name)

/-- `DirectiveInterpreter::register_core_handlers`: the seven registrations
performed at startup, in source order. -/
def register_core_handlers (bus : Bus) : Bus :=
  ((((((bus.register "initiate_session" .InitiateSessionHandler).register
    "think" .ThinkHandler).register
    "observe" .ObserveHandler).register
    "ingest_file" .IngestFileHandler).register
    "fs_batch" .FsBatchHandler).register
    "bootstrap_skills" .BootstrapSkillsHandler).register
    "shutdown" .ShutdownHandler

/-- A JSON string value from a Lean `String`. -/
def jstr (s : String) : Json := .str s.toList

/-- `route_impulse` from `core/loop.rs`: one impulse becomes an ordered
(possibly empty) list of directives; the lane tag is only printed. -/
def route_impulse (imp : Impulse) (_lane : String) : List Directive :=
  match imp with
  | .InitiateSession input =>
    [⟨"initiate_session", .obj (.cons "input".toList (jstr input) .nil)⟩]
  | .ThinkStep session_id =>
    [⟨"think", .obj (.cons "session_id".toList (jstr session_id) .nil)⟩]
  | .Observation session_id obs =>
    [⟨"observe", .obj (.cons "session_id".toList (jstr session_id)
      (.cons "observation".toList (jstr obs) .nil))⟩]
  | .FileSystemEvent paths =>
    [⟨"fs_batch", .obj (.cons "paths".toList
      (.arr (paths.foldr (fun p t => .cons (jstr p) t) .nil)) .nil)⟩]
  | .SwarmSignal _ _ => []
  | .BootstrapSkills => [⟨"bootstrap_skills", .obj .nil⟩]
  | .JanitorWakeup => [⟨"maintenance", .obj .nil⟩]
  | .SystemInterrupt => [⟨"shutdown", .obj .nil⟩]
  | .Error e => [⟨"error", .obj (.cons "message".toList (jstr e) .nil)⟩]

/-- The dispatch order `cortex_loop` produces from the two pre-filled lanes:
`tokio::select!` with `biased` polls the priority lane first, so its head is
routed and fully dispatched before any background impulse; after an impulse
whose directives contain a `shutdown` the loop breaks; when both lanes are
exhausted the loop ends. -/
def cortexLoopTrace : List Impulse → List Impulse → List Directive
  | p :: ps, bq =>
    let ds := route_impulse p "FAST"
    ds ++ (if ds.any (fun d => d.type_name == "shutdown") then [] else cortexLoopTrace ps bq)
  | [], b :: bs =>
    let ds := route_impulse b "SLOW"
    ds ++ (if ds.any (fun d => d.type_name == "shutdown") then [] else cortexLoopTrace [] bs)
  | [], [] => []

/-! ## Ingestion pipeline (`knowledge/mod.rs`, `knowledge/scanner.rs`,
`memory/store_graph.rs`)

The memory store keeps the `nodes` and `edges` tables, the `sync_log` and
the append-only event log.  SHA-256 and the embedding engine are injective
black boxes to this pipeline and enter as parameters (`h`, `embed`); the
extractor is the pure `Extractor::extract_symbols` and enters as a
parameter too, since only its determinism matters to the claims.  The
filesystem the scanner reads is a map from path strings to contents. -/

/-- `GraphNode` (embedding computed at insert time by `batch_add_nodes`). -/
structure GraphNode where
  id : String
  content : String
  node_type : String
  path : String
  edges : List String
  deriving DecidableEq

/-- A row of the `nodes` table. -/
structure NodeRow where
  id : String
  content : String
  node_type : String
  path : String
  embedding : List Int
  deriving DecidableEq

/-- The memory store as the ingestion pipeline sees it. -/
structure MemoryStore where
  nodes : List (String × NodeRow)
  edges : List (String × String × String)
  sync_log : List (String × (Int × String))
  events : List (String × Json)
  deriving DecidableEq

/-- `record_event(op, data)`: append-only event log. -/
def record_event (m : MemoryStore) (op : String) (data : Json) : MemoryStore :=
  { m with events := m.events ++ [(op, data)] }

/-- Insert or replace one `nodes` row (`:put` upserts by key). -/
def putNode (nodes : List (String × NodeRow)) (r : NodeRow) : List (String × NodeRow) :=
  if (List.lookup r.id nodes).isSome then
    nodes.map (fun e => if e.1 == r.id then (e.1, r) else e)
  else nodes ++ [(r.id, r)]

/-- Insert or replace one `edges` row keyed by `(from, to)`. -/
def putEdge (edges : List (String × String × String)) (fr dst rel : String) :
    List (String × String × String) :=
  if edges.any (fun e => e.1 == fr && e.2.1 == dst) then
    edges.map (fun e => if e.1 == fr && e.2.1 == dst then (fr, dst, rel) else e)
  else edges ++ [(fr, dst, rel)]

/-- `Memory::batch_add_nodes`: on a non-empty batch, embed every content,
upsert all node rows and their out-edges, and record one `batch_add_nodes`
event carrying the count and the paths. -/
def batch_add_nodes (m : MemoryStore) (embed : String → List Int)
    (nodes : List GraphNode) : MemoryStore :=
  if nodes.isEmpty then m
  else
    let m1 := { m with
      nodes := nodes.foldl (fun acc n => putNode acc
        ⟨n.id, n.content, n.node_type, n.path, embed n.content⟩) m.nodes,
      edges := nodes.foldl (fun acc n =>
        n.edges.foldl (fun acc2 t => putEdge acc2 n.id t "related") acc) m.edges }
    record_event m1 "batch_add_nodes"
      (.obj (.cons "count".toList (.num nodes.length)
        (.cons "paths".toList (.arr (nodes.foldr (fun n t => .cons (jstr n.path) t) .nil)) .nil)))

/-- `Memory::check_sync_status`: the stored `(last_ingested, content_hash)`
row for `path`, only when its hash is non-empty. -/
def check_sync_status (m : MemoryStore) (path : String) : Option (Int × String) :=
  match List.lookup path m.sync_log with
  | some (ts, hsh) => if hsh ≠ "" then some (ts, hsh) else none
  | none => none

/-- `Memory::update_sync_status`: upsert the row for `path` at the current
timestamp. -/
def update_sync_status (m : MemoryStore) (path hsh : String) (now : Int) : MemoryStore :=
  if (List.lookup path m.sync_log).isSome then
    { m with sync_log :=
        m.sync_log.map (fun e => if e.1 == path then (e.1, (now, hsh)) else e) }
  else { m with sync_log := m.sync_log ++ [(path, (now, hsh))] }

/-- `FileValue` from `knowledge/scanner.rs`. -/
structure FileValue where
  path : String
  content : String
  hash : String
  extension : String
  deriving DecidableEq

/-- `Path::extension()` lower-cased (empty when there is none): the part of
the last component after its last `.`, unless that dot is the leading
character of the component. -/
def extOf (path : String) : String :=
  let name := (path.toList.splitOn '/').getLastD []
  let suff := (name.reverse.takeWhile (· ≠ '.')).reverse
  if suff.length = name.length then ""
  else if name.length = suff.length + 1 ∧ name.head? = some '.' then ""
  else String.mk (suff.map Char.toLower)

/-- `Scanner::scan_file` over the path-string filesystem `fsFiles` with hash
oracle `h`: `None` for non-files and unsupported extensions, the populated
`FileValue` otherwise (read errors and `Ok(None)` both vanish in
`ingest_batch`'s `filter_map`). -/
def scan_file (fsFiles : List (String × String)) (h : String → String)
    (path : String) : Option FileValue :=
  match List.lookup path fsFiles with
  | none => none
  | some content =>
    let ext := extOf path
    if ["rs", "js", "ts", "py", "md", "txt"].contains ext then
      some ⟨path, content, h content, ext⟩
    else none

/-- `knowledge::should_reindex`: skip exactly the files whose stored sync
hash equals the scanned hash. -/
def should_reindex (m : MemoryStore) (f : FileValue) : Bool :=
  match check_sync_status m f.path with
  | some (_, old) => !(old == f.hash)
  | none => true

/-- `knowledge::commit_nodes`: batch-write the extracted nodes (when any)
then record the sync hash. -/
def commit_nodes (m : MemoryStore) (embed : String → List Int) (now : Int)
    (nodes : List GraphNode) (f : FileValue) : MemoryStore :=
  let m1 := if nodes.isEmpty then m else batch_add_nodes m embed nodes
  update_sync_status m1 f.path f.hash now

/-- `knowledge::ingest_batch`: scan, sync-filter, extract, batch-commit. -/
def ingest_batch (m : MemoryStore) (fsFiles : List (String × String))
    (h : String → String) (extract : FileValue → List GraphNode)
    (embed : String → List Int) (now : Int) (paths : List String) : MemoryStore :=
  if paths.isEmpty then m
  else
    let files := paths.filterMap (scan_file fsFiles h)
    let candidates := files.filter (should_reindex m)
    if candidates.isEmpty then m
    else
      (candidates.map (fun f => (extract f, f))).foldl
        (fun acc nf => commit_nodes acc embed now nf.1 nf.2) m

/-! ## Auxiliary predicates and measures used by the theorems -/

/-- `str::contains` as a boolean: `needle` occurs somewhere in `hay`. -/
def hasSub (hay needle : Str) : Bool := (findSub hay needle).isSome

mutual
/-- The modelled JSON fragment a Rust `serde_json::Value` serialisation
inhabits: every number is in the union of the `i64` and `u64` ranges (a Rust
`Value` holds nothing else in the integer fragment). -/
def wfJson : Json → Bool
  | .null => true
  | .bool _ => true
  | .num n => decide (-(2 ^ 63) ≤ n ∧ n < 2 ^ 64)
  | .str _ => true
  | .arr a => wfArr a
  | .obj o => wfObj o
/-- `wfJson` over an array's elements. -/
def wfArr : JArr → Bool
  | .nil => true
  | .cons v tl => wfJson v && wfArr tl
/-- `wfJson` over an object's member values. -/
def wfObj : JObj → Bool
  | .nil => true
  | .cons _ v tl => wfJson v && wfObj tl
end

/-- An action a Rust `AgentAction` value can be: `UseSkill` arguments are
`i32` and a `CallTool` argument value lies in the modelled fragment. -/
def wfAct : AgentAction → Bool
  | .CallTool _ args => wfJson args
  | .UseSkill _ xs => xs.all (fun x => decide (-(2 ^ 31) ≤ x ∧ x < 2 ^ 31))
  | _ => true

/-- `wfAct` over a whole action list. -/
def actsWF (l : List AgentAction) : Bool := l.all wfAct

mutual
/-- Fuel sufficient for `parseValue` to parse this value's serialisation. -/
def needV : Json → Nat
  | .null => 1
  | .bool _ => 1
  | .num _ => 1
  | .str _ => 1
  | .arr .nil => 1
  | .arr (.cons v tl) => 1 + needE (.cons v tl)
  | .obj .nil => 1
  | .obj (.cons k v tl) => 1 + needM (.cons k v tl)
/-- Fuel sufficient for `parseElems` on this element list. -/
def needE : JArr → Nat
  | .nil => 1
  | .cons v tl => 1 + max (needV v) (needE tl)
/-- Fuel sufficient for `parseMems` on this member list. -/
def needM : JObj → Nat
  | .nil => 1
  | .cons _ v tl => 1 + max (needV v) (needM tl)
end

/-- The follower-character discipline under which a serialized value is
re-parsed in context: at the top level nothing follows, inside arrays and
objects a comma or the closing bracket follows. -/
def restOk (rest : Str) : Prop :=
  rest = [] ∨ ∃ c cs, rest = c :: cs ∧ (c = ',' ∨ c = ']' ∨ c = '}')

/-! ## Theorems -/

/-- Claim C2: every absolute path not prefixed by `base_dir` is refused by
`read_file`, `write_file` and `execute_action` (`Write` and `Delete`) with
the out-of-workspace error, and the filesystem state is returned untouched:
no file or directory is created, modified or removed. -/
theorem workspace_safety_refusal (s : FsState) (ov : OverlayFS) (p : RPath) (c : Str)
    (habs : p.abs = true) (hout : p.startsWith ov.base_dir = false) :
    read_file s ov p = .error "Path is outside base directory" ∧
    write_file s ov p c = (s, .error "Path is outside base directory") ∧
    execute_action s ov (.Write p c) = (s, .error "Path is outside base directory") ∧
    execute_action s ov (.Delete p) = (s, .error "Path is outside base directory") := by
  refine ⟨?_, ?_, ?_, ?_⟩ <;>
    simp [read_file, write_file, execute_action, get_relative_path, map_to_overlay, habs, hout]

/-- Claim C2, witness: the refusal theorem applied at `/etc/passwd` against a
workspace rooted at `/home/user/proj`. -/
theorem workspace_safety_refusal_witness :
    read_file ⟨[], []⟩ ⟨⟨true, ["home", "user", "proj"]⟩, ⟨true, ["tmp", "ov"]⟩⟩
        ⟨true, ["etc", "passwd"]⟩
      = .error "Path is outside base directory" :=
  (workspace_safety_refusal ⟨[], []⟩ ⟨⟨true, ["home", "user", "proj"]⟩, ⟨true, ["tmp", "ov"]⟩⟩
    ⟨true, ["etc", "passwd"]⟩ [] (by decide) (by decide)).1

/-- Claim C3: `step_agent_session` returns with the LLM uninvoked, no
`update_session` call and the store unchanged whenever the session is absent
from the store or its depth has reached `max_loops`. -/
theorem step_depth_cap_noop (env : StepEnv) (store : SessionStore) (fs : FsState)
    (ov : OverlayFS) (sid : String) (max_loops : Nat)
    (h : get_session store sid = none ∨
      ∃ s, get_session store sid = some s ∧ max_loops ≤ s.depth) :
    step_agent_session env store fs ov sid max_loops = ⟨store, fs, false, []⟩ := by
  rcases h with h | ⟨s, hs, hd⟩
  · simp [step_agent_session, h]
  · simp [step_agent_session, hs, hd]

/-- Claim C3, witness: the no-op theorem applied to an absent session id and
to a stored session at the depth cap. -/
theorem step_depth_cap_noop_witness :
    step_agent_session ⟨fun _ => .ok [], [], fun _ _ => .error [], fun _ => .error []⟩
        [] ⟨[], []⟩ ⟨⟨true, []⟩, ⟨true, []⟩⟩ "absent" 3
      = ⟨[], ⟨[], []⟩, false, []⟩ ∧
    step_agent_session ⟨fun _ => .ok [], [], fun _ _ => .error [], fun _ => .error []⟩
        [("S", ⟨"S", [], 3, .Idle⟩)] ⟨[], []⟩ ⟨⟨true, []⟩, ⟨true, []⟩⟩ "S" 3
      = ⟨[("S", ⟨"S", [], 3, .Idle⟩)], ⟨[], []⟩, false, []⟩ :=
  ⟨step_depth_cap_noop _ _ _ _ _ _ (Or.inl (by decide)),
    step_depth_cap_noop _ _ _ _ _ _ (Or.inr ⟨⟨"S", [], 3, .Idle⟩, by decide, by decide⟩)⟩

/-- Claim C4, counterexample: a persisted session with status `Completed`
and depth `0 < 3` is re-stepped by a `think` directive — the loader does not
no-op: the LLM is invoked and the step writes the session back. -/
theorem terminated_restep_counterexample :
    get_session [("S", ⟨"S", [['h']], 0, .Completed⟩)] "S"
        = some ⟨"S", [['h']], 0, .Completed⟩ ∧
    (step_agent_session ⟨fun _ => .ok "Hello!".toList, [], fun _ _ => .error [],
        fun _ => .error []⟩
      [("S", ⟨"S", [['h']], 0, .Completed⟩)] ⟨[], []⟩ ⟨⟨true, []⟩, ⟨true, []⟩⟩
      "S" 3).llm_invoked = true ∧
    (step_agent_session ⟨fun _ => .ok "Hello!".toList, [], fun _ _ => .error [],
        fun _ => .error []⟩
      [("S", ⟨"S", [['h']], 0, .Completed⟩)] ⟨[], []⟩ ⟨⟨true, []⟩, ⟨true, []⟩⟩
      "S" 3).session_writes ≠ [] := by
  refine ⟨by decide, by decide, by decide⟩

/-- Claim C4, amended: `step_agent_session` checks only presence and the
depth cap, never the status, so a persisted session whose status is
`Completed` or `Error(..)` and whose depth is below `max_loops` is
re-stepped: the LLM is invoked (the original claim's no-op holds only for
absent sessions or exhausted depth, per C3). -/
theorem terminated_restep_llm_invoked (env : StepEnv) (store : SessionStore)
    (fs : FsState) (ov : OverlayFS) (sid : String) (max_loops : Nat) (s : AgentSession)
    (hs : get_session store sid = some s)
    (_hterm : s.status = .Completed ∨ ∃ m, s.status = .Error m)
    (hd : s.depth < max_loops) :
    (step_agent_session env store fs ov sid max_loops).llm_invoked = true := by
  simp only [step_agent_session, hs]
  rw [if_neg (by omega)]
  cases env.llm (promptOf env s) with
  | error e => rfl
  | ok r =>
    dsimp only
    cases hp : parse_action r with
    | ok acts => rfl
    | error e => rfl

/-- Claim C4, amended claim's witness: the re-step theorem applied at a
concrete `Completed` session of depth 0 with `max_loops = 3`. -/
theorem terminated_restep_llm_invoked_witness :
    (step_agent_session ⟨fun _ => .ok "Hello!".toList, [], fun _ _ => .error [],
        fun _ => .error []⟩
      [("S", ⟨"S", [['h']], 0, .Completed⟩)] ⟨[], []⟩ ⟨⟨true, []⟩, ⟨true, []⟩⟩
      "S" 3).llm_invoked = true :=
  terminated_restep_llm_invoked _ _ _ _ _ _ ⟨"S", [['h']], 0, .Completed⟩
    (by decide) (Or.inl rfl) (by decide)

/-- Claim C10: when the LLM call fails, the step makes no `update_session`
call at all and returns the store untouched (the whole persisted session —
messages, depth and status — is unchanged); when the LLM call succeeds, the
step's only session-store write is the single final `update_session`. -/
theorem failed_step_no_session_write (env : StepEnv) (store : SessionStore)
    (fs : FsState) (ov : OverlayFS) (sid : String) (max_loops : Nat) (s : AgentSession)
    (hs : get_session store sid = some s) (hd : s.depth < max_loops) :
    ((∃ e, env.llm (promptOf env s) = .error e) →
      step_agent_session env store fs ov sid max_loops = ⟨store, fs, true, []⟩) ∧
    (∀ r, env.llm (promptOf env s) = .ok r →
      ∃ fin, (step_agent_session env store fs ov sid max_loops).session_writes = [fin] ∧
        (step_agent_session env store fs ov sid max_loops).store
          = update_session store fin) := by
  constructor
  · rintro ⟨e, he⟩
    simp only [step_agent_session, hs]
    rw [if_neg (by omega), he]
  · intro r hr
    simp only [step_agent_session, hs]
    rw [if_neg (by omega), hr]
    dsimp only
    cases hp : parse_action r with
    | ok acts => exact ⟨_, rfl, rfl⟩
    | error e => exact ⟨_, rfl, rfl⟩

/-- Claim C10, witness: a failing LLM leaves the concrete store byte-for-byte
unchanged with zero session writes. -/
theorem failed_step_no_session_write_witness :
    step_agent_session ⟨fun _ => .error "downstream".toList, [], fun _ _ => .error [],
        fun _ => .error []⟩
      [("S", ⟨"S", [['h']], 1, .Idle⟩)] ⟨[], []⟩ ⟨⟨true, []⟩, ⟨true, []⟩⟩ "S" 3
      = ⟨[("S", ⟨"S", [['h']], 1, .Idle⟩)], ⟨[], []⟩, true, []⟩ :=
  (failed_step_no_session_write _ _ _ _ _ _ ⟨"S", [['h']], 1, .Idle⟩
    (by decide) (by decide)).1 ⟨_, rfl⟩

/-- Claim C7, counterexample: `register_core_handlers` registers only seven
handlers; the impulse routing still produces `maintenance` (from
`JanitorWakeup`) and `error` (from `Error`) directives, whose dispatch fails
with the unknown-type error. -/
theorem unregistered_directive_counterexample :
    route_impulse .JanitorWakeup "SLOW" = [⟨"maintenance", .obj .nil⟩] ∧
    Bus.dispatch (register_core_handlers []) "maintenance"
      = .error "No handler registered for directive: maintenance" ∧
    route_impulse (.Error "boom") "FAST"
      = [⟨"error", .obj (.cons "message".toList (jstr "boom") .nil)⟩] ∧
    Bus.dispatch (register_core_handlers []) "error"
      = .error "No handler registered for directive: error" := by
  refine ⟨by decide, by decide, by decide, by decide⟩

/-- Claim C7, amended: of the spec's closed directive set only
`initiate_session`, `think`, `observe`, `ingest_file`, `fs_batch`,
`bootstrap_skills` and `shutdown` are registered at startup, so dispatch
finds a handler for every impulse-routed directive except those produced by
`JanitorWakeup` (`maintenance`) and `Error` (`error`), whose dispatch fails
with the unknown-type error. -/
theorem routed_directives_registered (imp : Impulse) (lane : String)
    (h1 : imp ≠ .JanitorWakeup) (h2 : ∀ m, imp ≠ .Error m) :
    ∀ d ∈ route_impulse imp lane,
      ∃ hdl, Bus.dispatch (register_core_handlers []) d.type_name = .ok hdl := by
  intro d hd
  cases imp with
  | InitiateSession input =>
    simp [route_impulse] at hd; subst hd; exact ⟨.InitiateSessionHandler, rfl⟩
  | ThinkStep sid =>
    simp [route_impulse] at hd; subst hd; exact ⟨.ThinkHandler, rfl⟩
  | Observation sid obs =>
    simp [route_impulse] at hd; subst hd; exact ⟨.ObserveHandler, rfl⟩
  | FileSystemEvent paths =>
    simp [route_impulse] at hd; subst hd; exact ⟨.FsBatchHandler, rfl⟩
  | SwarmSignal wid st => simp [route_impulse] at hd
  | BootstrapSkills =>
    simp [route_impulse] at hd; subst hd; exact ⟨.BootstrapSkillsHandler, rfl⟩
  | JanitorWakeup => exact absurd rfl h1
  | SystemInterrupt =>
    simp [route_impulse] at hd; subst hd; exact ⟨.ShutdownHandler, rfl⟩
  | Error m => exact absurd rfl (h2 m)

/-- Claim C7, amended claim's witness: the `think` directive routed from a
`ThinkStep` impulse finds its handler. -/
theorem routed_directives_registered_witness :
    ∃ hdl, Bus.dispatch (register_core_handlers [])
      (Directive.type_name ⟨"think", .obj (.cons "session_id".toList (jstr "S") .nil)⟩)
        = .ok hdl :=
  routed_directives_registered (.ThinkStep "S") "FAST" (by decide) (fun m => by simp)
    ⟨"think", .obj (.cons "session_id".toList (jstr "S") .nil)⟩ (by decide)

/-- Claim C8: the loop's selection is strictly biased — whenever the
priority lane is non-empty its head impulse is routed and all its directives
dispatched before anything else (in particular before any background
impulse), and in the literal scenario a background `FileSystemEvent` already
enqueued is handled only after the priority `ThinkStep`. -/
theorem priority_lane_bias :
    (∀ p ps bq, ∃ rest, cortexLoopTrace (p :: ps) bq
      = route_impulse p "FAST" ++ rest) ∧
    cortexLoopTrace [.ThinkStep "S"] [.FileSystemEvent ["a.txt"]]
      = route_impulse (.ThinkStep "S") "FAST"
        ++ route_impulse (.FileSystemEvent ["a.txt"]) "SLOW" := by
  constructor
  · intro p ps bq
    exact ⟨if (route_impulse p "FAST").any (fun d => d.type_name == "shutdown") then []
        else cortexLoopTrace ps bq,
      by rw [cortexLoopTrace]⟩
  · rw [cortexLoopTrace, cortexLoopTrace, cortexLoopTrace]
    decide

/-- Replacing under a present key makes `lookup` return the new value. -/
theorem lookup_map_replace {β : Type} (l : List (String × β)) (p : String) (v : β)
    (hp : (List.lookup p l).isSome) :
    List.lookup p (l.map (fun e => if e.1 == p then (e.1, v) else e)) = some v := by
  induction l with
  | nil => simp [List.lookup] at hp
  | cons e t ih =>
    obtain ⟨k, w⟩ := e
    by_cases hk : p = k
    · subst hk
      have hT : (p == p) = true := by simp
      rw [List.map_cons, if_pos hT]
      simp only [List.lookup, hT]
    · have hne : ¬ ((k == p) = true) := by simp [Ne.symm hk]
      have hne2 : (p == k) = false := by simp [hk]
      rw [List.map_cons, if_neg hne]
      simp only [List.lookup, hne2] at hp ⊢
      exact ih hp

/-- Appending a binding for an absent key makes `lookup` return it. -/
theorem lookup_append_absent {β : Type} (l : List (String × β)) (p : String) (v : β)
    (hp : List.lookup p l = none) :
    List.lookup p (l ++ [(p, v)]) = some v := by
  induction l with
  | nil => simp [List.lookup]
  | cons e t ih =>
    obtain ⟨k, w⟩ := e
    by_cases hk : p = k
    · simp [List.lookup, hk] at hp
    · have hne2 : (p == k) = false := by simp [hk]
      simp only [List.lookup, hne2] at hp
      simp only [List.cons_append, List.lookup, hne2]
      exact ih hp

/-- After `update_sync_status`, the sync row for the path is the new pair. -/
theorem lookup_update_sync_status (m : MemoryStore) (path hsh : String) (now : Int) :
    List.lookup path (update_sync_status m path hsh now).sync_log = some (now, hsh) := by
  unfold update_sync_status
  by_cases hp : (List.lookup path m.sync_log).isSome
  · simp only [hp, if_true]
    exact lookup_map_replace _ _ _ hp
  · simp only [hp, if_false]
    exact lookup_append_absent _ _ _ (by
      cases hl : List.lookup path m.sync_log with
      | none => rfl
      | some x => simp [hl] at hp)

/-- `batch_add_nodes` never touches the `sync_log`. -/
theorem batch_add_nodes_sync_log (m : MemoryStore) (embed : String → List Int)
    (nodes : List GraphNode) :
    (batch_add_nodes m embed nodes).sync_log = m.sync_log := by
  unfold batch_add_nodes record_event
  split <;> rfl

/-- Claim C9: re-running `ingest_batch` on a file whose stored sync hash
equals the hash of its current content is a complete no-op on the store —
no `nodes` write, no `batch_add_nodes` event, no change at all; and
ingesting the same unchanged file twice leaves the store of the first pass
untouched on the second (hence the same set of node ids and zero additional
writes). -/
theorem differential_ingestion_idempotent (m : MemoryStore)
    (fsFiles : List (String × String)) (h : String → String)
    (extract : FileValue → List GraphNode) (embed : String → List Int)
    (now now2 : Int) (path content : String)
    (hfile : List.lookup path fsFiles = some content)
    (hext : ["rs", "js", "ts", "py", "md", "txt"].contains (extOf path) = true)
    (hhash : h content ≠ "") :
    ((∃ ts, List.lookup path m.sync_log = some (ts, h content)) →
      ingest_batch m fsFiles h extract embed now [path] = m) ∧
    ingest_batch (ingest_batch m fsFiles h extract embed now [path])
        fsFiles h extract embed now2 [path]
      = ingest_batch m fsFiles h extract embed now [path] := by
  have hscan : scan_file fsFiles h path = some ⟨path, content, h content, extOf path⟩ := by
    simp only [scan_file, hfile, hext, if_true]
  have hnoop : ∀ (m' : MemoryStore),
      List.lookup path m'.sync_log = some (now, h content) →
      ingest_batch m' fsFiles h extract embed now2 [path] = m' := by
    intro m' hl
    have hsr : should_reindex m' ⟨path, content, h content, extOf path⟩ = false := by
      simp [should_reindex, check_sync_status, hl, hhash]
    simp [ingest_batch, hscan, hsr]
  constructor
  · rintro ⟨ts, hts⟩
    have hsr : should_reindex m ⟨path, content, h content, extOf path⟩ = false := by
      simp [should_reindex, check_sync_status, hts, hhash]
    simp [ingest_batch, hscan, hsr]
  · cases hsr : should_reindex m ⟨path, content, h content, extOf path⟩ with
    | false =>
      have h1 : ingest_batch m fsFiles h extract embed now [path] = m := by
        simp [ingest_batch, hscan, hsr]
      rw [h1]
      simp [ingest_batch, hscan, hsr]
    | true =>
      have h1 : ingest_batch m fsFiles h extract embed now [path]
          = commit_nodes m embed now
              (extract ⟨path, content, h content, extOf path⟩)
              ⟨path, content, h content, extOf path⟩ := by
        simp [ingest_batch, hscan, hsr]
      rw [h1]
      apply hnoop
      unfold commit_nodes
      rw [show (update_sync_status
          (if (extract ⟨path, content, h content, extOf path⟩).isEmpty then m
            else batch_add_nodes m embed (extract ⟨path, content, h content, extOf path⟩))
          path (h content) now).sync_log
        = (update_sync_status
          (if (extract ⟨path, content, h content, extOf path⟩).isEmpty then m
            else batch_add_nodes m embed (extract ⟨path, content, h content, extOf path⟩))
          path (h content) now).sync_log from rfl]
      exact lookup_update_sync_status _ _ _ _

/-- Claim C9, witness: the idempotence theorem applied to a concrete store,
file map, hash oracle and extractor. -/
theorem differential_ingestion_idempotent_witness :
    ingest_batch (ingest_batch ⟨[], [], [], []⟩ [("proj/a.rs", "fn a()")]
        (fun s => "H" ++ s)
        (fun f => [⟨"file:" ++ f.path, f.content, "file", f.path, []⟩])
        (fun _ => [1, 2]) 10 ["proj/a.rs"])
      [("proj/a.rs", "fn a()")] (fun s => "H" ++ s)
      (fun f => [⟨"file:" ++ f.path, f.content, "file", f.path, []⟩])
      (fun _ => [1, 2]) 11 ["proj/a.rs"]
    = ingest_batch ⟨[], [], [], []⟩ [("proj/a.rs", "fn a()")]
        (fun s => "H" ++ s)
        (fun f => [⟨"file:" ++ f.path, f.content, "file", f.path, []⟩])
        (fun _ => [1, 2]) 10 ["proj/a.rs"] :=
  (differential_ingestion_idempotent ⟨[], [], [], []⟩ [("proj/a.rs", "fn a()")]
    (fun s => "H" ++ s)
    (fun f => [⟨"file:" ++ f.path, f.content, "file", f.path, []⟩])
    (fun _ => [1, 2]) 10 11 "proj/a.rs" "fn a()"
    (by decide) (by decide) (by decide)).2

/-- Claim C5, counterexample: on the input `[]` the whole-response pass
deserialises an empty action vector, so `parse_action` returns `Ok` with an
EMPTY list — the claimed "non-empty action list" fails (the terminal
`Answer` fallback is not reached because the vector parse succeeds). -/
theorem parse_action_empty_vec_counterexample :
    parse_action "[]".toList = .ok ([] : List AgentAction) := by decide

/-- Claim C5, amended: `parse_action` is total — it returns `Ok` on every
input, never erroring on malformed JSON — and whenever no fenced block and
no whole-response parse yields an action, the result is exactly the
one-element list `[Answer . input]`; in particular `"Hello!"` yields
`[Answer "Hello!"]`.  (The result can be empty, only when the whole trimmed
response deserialises as an empty JSON action array, e.g. `"[]"`.) -/
theorem parse_action_total_fallback :
    (∀ s : Str, ∃ l, parse_action s = .ok l) ∧
    (∀ s : Str, scanJsonBlocks s = [] → scanGenericBlocks s = [] →
      fromStrSingle (rustTrim s) = none → fromStrVec (rustTrim s) = none →
      parse_action s = .ok [.Answer s]) ∧
    parse_action "Hello!".toList = .ok [.Answer "Hello!".toList] := by
  refine ⟨?_, ?_, by decide⟩
  · intro s
    unfold parse_action
    dsimp only
    repeat' split
    all_goals exact ⟨_, rfl⟩
  · intro s h1 h2 h3 h4
    simp only [parse_action, h1, h2, h3, h4, List.isEmpty_nil]
    simp

/-- Claim C5, amended claim's witness: totality and the fallback applied at
the literal input `"Hello!"`. -/
theorem parse_action_total_fallback_witness :
    parse_action "Hello!".toList = .ok [.Answer "Hello!".toList] :=
  parse_action_total_fallback.2.1 "Hello!".toList (by decide) (by decide)
    (by decide) (by decide)

/-- Prefix of a snoc is a prefix of the front or the whole list. -/
theorem pre_snoc {α : Type} (l m : List α) (a : α) (h : l <+: m ++ [a]) :
    l <+: m ∨ l = m ++ [a] := by
  rcases h with ⟨t, ht⟩
  cases t using List.reverseRecOn with
  | nil => right; simpa using ht
  | append_singleton t' x =>
    left
    have h2 : (l ++ t') ++ [x] = m ++ [a] := by simpa [List.append_assoc] using ht
    have hb : l ++ t' = m := by
      have := congrArg List.dropLast h2
      simpa [List.dropLast_concat] using this
    exact ⟨t', hb⟩

/-- `isPrefixOf` agrees with the prefix relation. -/
theorem prefBool_iff {l m : List String} : l.isPrefixOf m = true ↔ l <+: m :=
  List.isPrefixOf_iff_prefix

/-- Adding only already-present directories is a no-op (stated in the
membership form `simp` normalises `List.contains` to). -/
theorem foldl_insert_present (l ds : List (List String))
    (h : ∀ x ∈ l, x ∈ ds) :
    List.foldl (fun ds q => if q ∈ ds then ds else q :: ds) ds l = ds := by
  induction l with
  | nil => rfl
  | cons x t ih =>
    have hx := h x (by simp)
    simp only [List.foldl_cons, hx, if_true]
    exact ih fun y hy => h y (by simp [hy])

/-- `RPath.parent` of a non-root path. -/
theorem rpath_parent (a : Bool) (l : List String) (h : l ≠ []) :
    RPath.parent ⟨a, l⟩ = some ⟨a, l.dropLast⟩ := by
  cases l with
  | nil => exact absurd rfl h
  | cons x t => rfl

/-- Claim C1 (overlay shadow semantics): with base directory `b` holding
`name` with content `c1` and a fresh, empty, disjoint overlay directory `o`,
reading through the overlay returns the base content; writing `c2` stages it
in the overlay only (the base entry keeps `c1`); reading then returns `c2`
while the base file still reads `c1`; and after `commit()` the base file
reads `c2`. -/
theorem overlay_shadow_commit_ok (b o : List String) (name : String) (c1 c2 : Str)
    (hbo : ¬ b <+: o) (hob : ¬ o <+: b) :
    read_file ⟨[(b ++ [name], c1)], b.inits ++ o.inits⟩ ⟨⟨true, b⟩, ⟨true, o⟩⟩
        ⟨true, b ++ [name]⟩ = .ok c1 ∧
    write_file ⟨[(b ++ [name], c1)], b.inits ++ o.inits⟩ ⟨⟨true, b⟩, ⟨true, o⟩⟩
        ⟨true, b ++ [name]⟩ c2
      = (⟨[(o ++ [name], c2), (b ++ [name], c1)], b.inits ++ o.inits⟩, .ok ()) ∧
    read_file ⟨[(o ++ [name], c2), (b ++ [name], c1)], b.inits ++ o.inits⟩
        ⟨⟨true, b⟩, ⟨true, o⟩⟩ ⟨true, b ++ [name]⟩ = .ok c2 ∧
    fsRead ⟨[(o ++ [name], c2), (b ++ [name], c1)], b.inits ++ o.inits⟩
        (b ++ [name]) = .ok c1 ∧
    (commit ⟨[(o ++ [name], c2), (b ++ [name], c1)], b.inits ++ o.inits⟩
        ⟨⟨true, b⟩, ⟨true, o⟩⟩).2 = .ok () ∧
    fsRead (commit ⟨[(o ++ [name], c2), (b ++ [name], c1)], b.inits ++ o.inits⟩
        ⟨⟨true, b⟩, ⟨true, o⟩⟩).1 (b ++ [name]) = .ok c2 := by
  -- basic disjointness facts
  have hObB : ¬ (o <+: b ++ [name]) := by
    intro h
    rcases pre_snoc o b name h with h1 | h1
    · exact hob h1
    · exact hbo (h1 ▸ List.prefix_append b [name])
  have hBoO : ¬ (b ++ [name] <+: o) := fun h =>
    hbo ((List.prefix_append b [name]).trans h)
  have hOoB : ¬ (o ++ [name] <+: b) := fun h =>
    hob ((List.prefix_append o [name]).trans h)
  have hBneO : b ++ [name] ≠ o ++ [name] := by
    intro h
    have : b = o := by
      have := congrArg List.dropLast h
      simpa [List.dropLast_concat] using this
    exact hbo (this ▸ List.prefix_refl o)
  have hOnm : (o ++ [name]) ∉ b.inits ++ o.inits := by
    intro hm
    rcases List.mem_append.mp hm with hm | hm
    · exact hOoB ((List.mem_inits _ _).mp hm)
    · have := ((List.mem_inits _ _).mp hm).length_le
      simp at this
  have hBnm : (b ++ [name]) ∉ b.inits ++ o.inits := by
    intro hm
    rcases List.mem_append.mp hm with hm | hm
    · have := ((List.mem_inits _ _).mp hm).length_le
      simp at this
    · exact hBoO ((List.mem_inits _ _).mp hm)
  have hbm : b ∈ b.inits ++ o.inits :=
    List.mem_append_left _ ((List.mem_inits _ _).mpr (List.prefix_refl b))
  have hom : o ∈ b.inits ++ o.inits :=
    List.mem_append_right _ ((List.mem_inits _ _).mpr (List.prefix_refl o))
  have hbneB : b ≠ b ++ [name] := by
    intro h; have := congrArg List.length h; simp at this
  have hbneO : b ≠ o ++ [name] := fun h => hOoB (h ▸ List.prefix_refl _)
  -- path resolution
  have hpre_bB : b.isPrefixOf (b ++ [name]) = true :=
    prefBool_iff.mpr (List.prefix_append b [name])
  have hrel : get_relative_path ⟨⟨true, b⟩, ⟨true, o⟩⟩ ⟨true, b ++ [name]⟩
      = .ok ⟨false, [name]⟩ := by
    simp [get_relative_path, RPath.startsWith, RPath.stripPref, hpre_bB, List.drop_left]
  -- boolean forms
  have hcO : ((b.inits ++ o.inits).contains (o ++ [name])) = false := by
    simpa using hOnm
  have hcB : ((b.inits ++ o.inits).contains (b ++ [name])) = false := by
    simpa using hBnm
  have hcb : ((b.inits ++ o.inits).contains b) = true := by simpa using hbm
  have hco : ((b.inits ++ o.inits).contains o) = true := by simpa using hom
  have hOne : (o ++ [name] : List String) ≠ [] := by simp
  have hBne : (b ++ [name] : List String) ≠ [] := by simp
  have hbeqOB : ((o ++ [name] : List String) == (b ++ [name])) = false := by
    simpa using Ne.symm hBneO
  have hbeqBO : ((b ++ [name] : List String) == (o ++ [name])) = false := by
    simpa using hBneO
  have hOpo : ¬ (o ++ [name] <+: o) := by
    intro h; have := h.length_le; simp at this
  have hBpb : ¬ (b ++ [name] <+: b) := by
    intro h; have := h.length_le; simp at this
  have hbeqbO : ((b : List String) == (o ++ [name])) = false := by simpa using hbneO
  have hbeqbB : ((b : List String) == (b ++ [name])) = false := by simpa using hbneB
  have hfO : (if o.isPrefixOf (o ++ [name]) ∧ o.length < (o ++ [name]).length
      then ((o ++ [name]).drop o.length).head? else none) = some name := by
    rw [if_pos ⟨prefBool_iff.mpr (List.prefix_append o [name]), by simp⟩]
    simp [List.drop_left]
  have hfB : (if o.isPrefixOf (b ++ [name]) ∧ o.length < (b ++ [name]).length
      then ((b ++ [name]).drop o.length).head? else none) = none := by
    rw [if_neg]
    rintro ⟨h, -⟩
    exact hObB (prefBool_iff.mp h)
  have hrest : (b.inits ++ o.inits).filterMap
      (fun q => if o.isPrefixOf q ∧ o.length < q.length
        then (q.drop o.length).head? else none) = [] := by
    rw [List.filterMap_eq_nil]
    intro q hq
    rcases List.mem_append.mp hq with hq | hq
    · rw [if_neg]
      rintro ⟨h, -⟩
      exact hob ((prefBool_iff.mp h).trans ((List.mem_inits _ _).mp hq))
    · rw [if_neg]
      rintro ⟨-, h⟩
      have := ((List.mem_inits _ _).mp hq).length_le
      omega
  have hchild : childNames
      ⟨[(o ++ [name], c2), (b ++ [name], c1)], b.inits ++ o.inits⟩ o = [name] := by
    simp only [childNames, List.map_cons, List.map_nil, List.cons_append, List.nil_append,
      List.filterMap_cons, hfO, hfB, hrest]
    simp
  have hpb : pathExists ⟨[(o ++ [name], c2), (b ++ [name], c1)], b.inits ++ o.inits⟩ b
      = true := by
    simp [pathExists, lookupFile, List.lookup, hbeqbO, hbeqbB, dirExists, hbm]
  have hcommit : commit ⟨[(o ++ [name], c2), (b ++ [name], c1)], b.inits ++ o.inits⟩
        ⟨⟨true, b⟩, ⟨true, o⟩⟩
      = (⟨[(b ++ [name], c2), (o ++ [name], c2)], b.inits ++ o.inits⟩, .ok ()) := by
    rw [commit]
    unfold maxPathFuel
    simp only [copyDirRec, hpb, if_true, hchild]
    simp only [copyEntries, hcO, hOnm]
    simp [fsCopy, lookupFile, List.lookup, fsWrite, dirExists, hBnm, hBne,
      List.dropLast_concat, hbm, setFile, hbeqBO, hbeqOB]
  refine ⟨?_, ?_, ?_, ?_, ?_, ?_⟩
  · -- overlay read falls through to base
    simp [read_file, hrel, RPath.join, pathExists, lookupFile, dirExists, List.lookup,
      hbeqOB, hOoB, hOpo, hcO, hOne, fsRead]
  · -- write stages into the overlay only
    have hany : (o.inits.any fun q =>
        (lookupFile ⟨[(b ++ [name], c1)], b.inits ++ o.inits⟩ q).isSome) = false := by
      rw [List.any_eq_false]
      intro q hq
      have hqo : q <+: o := (List.mem_inits _ _).mp hq
      have hqB : (q == b ++ [name]) = false := by
        simp only [beq_eq_false_iff_ne, ne_eq]
        intro h; exact hBoO (h ▸ hqo)
      simp [lookupFile, List.lookup, hqB]
    have hfold : List.foldl (fun ds q => if q ∈ ds then ds else q :: ds)
        (b.inits ++ o.inits) o.inits = b.inits ++ o.inits := by
      apply foldl_insert_present
      intro x hx
      exact List.mem_append_right _ hx
    simp [write_file, hrel, RPath.join, rpath_parent _ _ hOne, createDirAll,
      List.dropLast_concat, hany, hfold, fsWrite, dirExists, hcO, hOne, hco, hBoO,
      hOnm, hom, setFile, hbeqOB, hbeqBO, lookupFile]
  · -- re-read sees the staged content
    simp [read_file, hrel, RPath.join, pathExists, lookupFile, dirExists, List.lookup,
      fsRead]
  · -- the base entry still holds c1
    simp [fsRead, lookupFile, List.lookup, hbeqOB, hbeqBO]
  · -- commit succeeds
    rw [hcommit]
  · -- base reads the committed content
    rw [hcommit]
    simp [fsRead, lookupFile, List.lookup]


/-- Claim C1, witness: the overlay scenario theorem applied at the literal
`config.toml` scenario (`"version = 1"` staged to `"version = 2"`). -/
theorem overlay_shadow_commit_ok_witness :
    fsRead (commit ⟨[((["tmp", "sly_overlays", "tx_1"] : List String) ++ ["config.toml"],
          "version = 2".toList),
        ((["home", "user", "proj"] : List String) ++ ["config.toml"], "version = 1".toList)],
        (["home", "user", "proj"] : List String).inits
          ++ (["tmp", "sly_overlays", "tx_1"] : List String).inits⟩
      ⟨⟨true, ["home", "user", "proj"]⟩, ⟨true, ["tmp", "sly_overlays", "tx_1"]⟩⟩).1
      ((["home", "user", "proj"] : List String) ++ ["config.toml"])
      = .ok "version = 2".toList :=
  (overlay_shadow_commit_ok ["home", "user", "proj"] ["tmp", "sly_overlays", "tx_1"]
    "config.toml" "version = 1".toList "version = 2".toList
    (by decide) (by decide)).2.2.2.2.2



theorem digitChar_toNat (d : Nat) (h : d < 10) : (digitChar d).toNat = 48 + d := by
  interval_cases d <;> decide

theorem digitChar_digit (d : Nat) (h : d < 10) : '0' ≤ digitChar d ∧ digitChar d ≤ '9' := by
  interval_cases d <;> exact ⟨by decide, by decide⟩

theorem digitChar_zero (d : Nat) (h : d < 10) : digitChar d = '0' ↔ d = 0 := by
  interval_cases d <;> simp [digitChar] <;> decide

theorem natDigits_ne_nil (n : Nat) : natDigits n ≠ [] := by
  rw [natDigits]
  split <;> simp

theorem natDigits_all_digit (n : Nat) : ∀ c ∈ natDigits n, '0' ≤ c ∧ c ≤ '9' := by
  induction n using Nat.strong_induction_on with
  | _ n ih =>
    rw [natDigits]
    split
    · intro c hc
      simp at hc
      subst hc
      exact digitChar_digit n (by omega)
    · intro c hc
      rcases List.mem_append.mp hc with hc | hc
      · exact ih (n / 10) (Nat.div_lt_self (by omega) (by omega)) c hc
      · simp at hc
        subst hc
        exact digitChar_digit _ (Nat.mod_lt _ (by omega))

theorem digsToNat_append (xs : Str) (c : Char) :
    digsToNat (xs ++ [c]) = digsToNat xs * 10 + (c.toNat - 48) := by
  simp [digsToNat, List.foldl_append]

theorem digsToNat_natDigits (n : Nat) : digsToNat (natDigits n) = n := by
  induction n using Nat.strong_induction_on with
  | _ n ih =>
    rw [natDigits]
    split
    · rename_i h
      simp [digsToNat, digitChar_toNat n h]
    · rename_i h
      rw [digsToNat_append, ih (n / 10) (Nat.div_lt_self (by omega) (by omega)),
        digitChar_toNat _ (Nat.mod_lt _ (by omega))]
      omega

theorem natDigits_head_ne_zero (n : Nat) (h : n ≠ 0) :
    (natDigits n).head? ≠ some '0' := by
  induction n using Nat.strong_induction_on with
  | _ n ih =>
    rw [natDigits]
    split
    · rename_i hlt
      simp
      intro hc
      exact h ((digitChar_zero n hlt).mp hc)
    · rename_i hge
      rw [List.head?_append_of_ne_nil _ (natDigits_ne_nil _)]
      exact ih (n / 10) (Nat.div_lt_self (by omega) (by omega)) (by omega)

theorem natDigits_single_iff (n : Nat) (h : n < 10) : natDigits n = [digitChar n] := by
  rw [natDigits]
  simp [h]

theorem takeWhile_all_append (p : Char → Bool) (xs rest : Str)
    (hall : ∀ x ∈ xs, p x = true)
    (hrest : rest = [] ∨ ∃ c cs, rest = c :: cs ∧ p c = false) :
    (xs ++ rest).takeWhile p = xs ∧ (xs ++ rest).dropWhile p = rest := by
  induction xs with
  | nil =>
    rcases hrest with h | ⟨c, cs, h, hc⟩
    · subst h; simp
    · subst h; simp [List.takeWhile, List.dropWhile, hc]
  | cons x t ih =>
    have hx := hall x (by simp)
    have := ih fun y hy => hall y (by simp [hy])
    simp [List.takeWhile, List.dropWhile, hx, this.1, this.2]

theorem numFromDigits_true (digs rest : Str) (h : digsToNat digs ≤ 2 ^ 63) :
    numFromDigits true digs rest = some (.num (-(digsToNat digs : Int)), rest) := by
  unfold numFromDigits
  dsimp only
  rw [if_pos h]
  simp

theorem numFromDigits_false (digs rest : Str) (h : digsToNat digs < 2 ^ 64) :
    numFromDigits false digs rest = some (.num ((digsToNat digs : Int)), rest) := by
  unfold numFromDigits
  dsimp only
  rw [if_pos h]
  simp

theorem parseNum_ser (n : Int) (h1 : -(2 ^ 63) ≤ n) (h2 : n < 2 ^ 64) (rest : Str)
    (hrest : rest = [] ∨ ∃ c cs, rest = c :: cs ∧ (c = ',' ∨ c = ']' ∨ c = '}')) :
    parseNum (serInt n ++ rest) = some (.num n, rest) := by
  have key : ∀ (neg : Bool) (m : Nat) (rst : Str),
      numFromDigits neg (natDigits m) rst = some (.num n, rst) →
      (rst = [] ∨ ∃ c cs, rst = c :: cs ∧ (c = ',' ∨ c = ']' ∨ c = '}')) →
      m ≠ 0 ∨ n = 0 →
      ((if natDigits m = [] then none
        else if (natDigits m).length > 1 ∧ (natDigits m).head? = some '0' then none
        else
          match rst with
          | c :: _ =>
            if c = '.' ∨ c = 'e' ∨ c = 'E' then none else numFromDigits neg (natDigits m) rst
          | [] => numFromDigits neg (natDigits m) []) : Option (Json × Str))
        = some (.num n, rst) := by
    intro neg m rst hnum hrst hz
    have hzz : m ≠ 0 ∨ ((natDigits m).length ≤ 1) := by
      by_cases h : m = 0
      · right; rw [h, natDigits_single_iff 0 (by omega)]; simp
      · left; exact h
    rw [if_neg (by simpa using natDigits_ne_nil m)]
    rw [if_neg (by
      rintro ⟨hl, hh⟩
      rcases hzz with h | h
      · exact natDigits_head_ne_zero m h hh
      · omega)]
    rcases hrst with rfl | ⟨c, cs, rfl, hc⟩
    · exact hnum
    · have : ¬ (c = '.' ∨ c = 'e' ∨ c = 'E') := by
        rcases hc with rfl | rfl | rfl <;> decide
      simpa [this] using hnum
  have hrestP : rest = [] ∨ ∃ c cs, rest = c :: cs ∧
      (fun c => decide ('0' ≤ c) && decide (c ≤ '9')) c = false := by
    rcases hrest with h | ⟨c, cs, h, hc⟩
    · exact Or.inl h
    · refine Or.inr ⟨c, cs, h, ?_⟩
      rcases hc with rfl | rfl | rfl <;> decide
  rcases lt_or_le n 0 with hneg | hpos
  · have hser : serInt n = '-' :: natDigits (-n).toNat := by
      simp [serInt, hneg]
    have htw := takeWhile_all_append (fun c => decide ('0' ≤ c) && decide (c ≤ '9'))
      (natDigits (-n).toNat) rest
      (fun x hx => by
        have := natDigits_all_digit _ x hx
        simp [this.1, this.2])
      hrestP
    rw [hser]
    simp only [parseNum, List.cons_append, List.head?_cons, List.tail_cons]
    simp only [if_true, eq_self_iff_true]
    rw [htw.1, htw.2]
    refine key true (-n).toNat rest ?_ hrest (Or.inl (show (-n).toNat ≠ 0 by omega))
    rw [numFromDigits_true _ _ (by rw [digsToNat_natDigits]; omega), digsToNat_natDigits]
    have hx : (-(((-n).toNat : Nat) : Int)) = n := by omega
    rw [hx]
  · have hser : serInt n = natDigits n.toNat := by
      simp [serInt, Int.not_lt.mpr hpos]
    obtain ⟨c0, cs0, hshape⟩ : ∃ c0 cs0, natDigits n.toNat = c0 :: cs0 := by
      cases hd : natDigits n.toNat with
      | nil => exact absurd hd (natDigits_ne_nil _)
      | cons a b => exact ⟨a, b, rfl⟩
    have hc0 := natDigits_all_digit n.toNat c0 (by rw [hshape]; simp)
    have hc0n : 48 ≤ c0.toNat := hc0.1
    have hc0m : ¬ ((c0 :: (cs0 ++ rest)).head? = some '-') := by
      simp only [List.head?_cons, Option.some.injEq]
      intro h
      rw [h] at hc0n
      have : ('-').toNat = 45 := by decide
      omega
    have htw := takeWhile_all_append (fun c => decide ('0' ≤ c) && decide (c ≤ '9'))
      (natDigits n.toNat) rest
      (fun x hx => by
        have := natDigits_all_digit _ x hx
        simp [this.1, this.2])
      hrestP
    rw [hser, hshape]
    simp only [parseNum, List.cons_append]
    rw [if_neg hc0m]
    simp only
    rw [show c0 :: (cs0 ++ rest) = (c0 :: cs0) ++ rest from rfl, ← hshape]
    rw [htw.1, htw.2]
    refine key false n.toNat rest ?_ hrest ?_
    · rw [numFromDigits_false _ _ (by rw [digsToNat_natDigits]; omega), digsToNat_natDigits]
      have hx : (((n.toNat : Nat) : Int)) = n := by omega
      rw [hx]
    · by_cases h0 : n = 0
      · exact Or.inr h0
      · exact Or.inl (by omega)

theorem hexVal_hexChar (k : Nat) (h : k < 16) : hexVal (hexChar k) = some k := by
  interval_cases k <;> decide

theorem psb_quote (fuel : Nat) (r : Str) :
    parseStrBody (fuel + 1) ('"' :: r) = some ([], r) := rfl

theorem psb_esc (fuel : Nat) (e x : Char) (r : Str)
    (he : (e, x) ∈ ([('"', '"'), ('\x5c', '\x5c'), ('/', '/'), ('b', '\x08'),
      ('f', '\x0c'), ('n', '\n'), ('r', '\r'), ('t', '\t')] : List (Char × Char))) :
    parseStrBody (fuel + 1) ('\x5c' :: e :: r)
      = (parseStrBody fuel r).map (fun p => (x :: p.1, p.2)) := by
  fin_cases he <;> rfl

theorem psb_u (fuel : Nat) (x y : Char) (a bv : Nat) (r : Str) (hx : hexVal x = some a)
    (hy : hexVal y = some bv) (ha : a < 16) (hb : bv < 16) :
    parseStrBody (fuel + 1) ('\x5c' :: 'u' :: '0' :: '0' :: x :: y :: r)
      = (parseStrBody fuel r).map (fun p => (Char.ofNat (a * 16 + bv) :: p.1, p.2)) := by
  rw [parseStrBody.eq_def]
  have hcode : ((0 * 16 + 0) * 16 + a) * 16 + bv = a * 16 + bv := by ring
  simp [hex4, hx, hy, hcode, show hexVal '0' = some 0 from by decide, Option.bind,
    show ¬ (0xD800 ≤ a * 16 + bv ∧ a * 16 + bv ≤ 0xDBFF) by omega,
    show ¬ (0xDC00 ≤ a * 16 + bv ∧ a * 16 + bv ≤ 0xDFFF) by omega]

theorem psb_raw (fuel : Nat) (c : Char) (r : Str) (h1 : c ≠ '"') (h2 : c ≠ '\x5c')
    (h3 : ¬ c.toNat < 0x20) :
    parseStrBody (fuel + 1) (c :: r)
      = (parseStrBody fuel r).map (fun p => (c :: p.1, p.2)) := by
  rw [parseStrBody.eq_def]
  simp [h1, h2, h3]


theorem psb_ser_esc (fuel : Nat) (c e : Char) (cs rest : Str)
    (hesc : escChar c = ['\x5c', e])
    (he : (e, c) ∈ ([('"', '"'), ('\x5c', '\x5c'), ('/', '/'), ('b', '\x08'),
      ('f', '\x0c'), ('n', '\n'), ('r', '\r'), ('t', '\t')] : List (Char × Char)))
    (hfuel : (serStrBody (c :: cs) ++ '"' :: rest).length ≤ fuel)
    (hih : ∀ (r : Str) (f : Nat), (serStrBody cs ++ '"' :: r).length ≤ f →
      parseStrBody f (serStrBody cs ++ '"' :: r) = some (cs, r)) :
    parseStrBody fuel (serStrBody (c :: cs) ++ '"' :: rest) = some (c :: cs, rest) := by
  have hshape : serStrBody (c :: cs) ++ '"' :: rest
      = '\x5c' :: e :: (serStrBody cs ++ '"' :: rest) := by
    rw [serStrBody, hesc]; simp
  have hlen : (serStrBody cs ++ '"' :: rest).length + 2 ≤ fuel := by
    rw [hshape] at hfuel; simp only [List.length_cons] at hfuel; omega
  obtain ⟨f, rfl⟩ : ∃ f, fuel = f + 1 := ⟨fuel - 1, by omega⟩
  rw [hshape, psb_esc f e c _ he, hih rest f (by omega)]
  rfl

theorem parseStrBody_ser (s : Str) : ∀ (rest : Str) (fuel : Nat),
    (serStrBody s ++ '"' :: rest).length ≤ fuel →
    parseStrBody fuel (serStrBody s ++ '"' :: rest) = some (s, rest) := by
  induction s with
  | nil =>
    intro rest fuel hfuel
    simp only [serStrBody, List.nil_append, List.length_cons] at hfuel
    obtain ⟨f, rfl⟩ : ∃ f, fuel = f + 1 := ⟨fuel - 1, by omega⟩
    exact psb_quote f rest
  | cons c cs ih =>
    intro rest fuel hfuel
    by_cases h1 : c = '"'
    · subst h1; exact psb_ser_esc fuel _ '"' cs rest (by decide) (by decide) hfuel ih
    by_cases h2 : c = '\x5c'
    · subst h2; exact psb_ser_esc fuel _ '\x5c' cs rest (by decide) (by decide) hfuel ih
    by_cases h3 : c = '\x08'
    · subst h3; exact psb_ser_esc fuel _ 'b' cs rest (by decide) (by decide) hfuel ih
    by_cases h4 : c = '\t'
    · subst h4; exact psb_ser_esc fuel _ 't' cs rest (by decide) (by decide) hfuel ih
    by_cases h5 : c = '\n'
    · subst h5; exact psb_ser_esc fuel _ 'n' cs rest (by decide) (by decide) hfuel ih
    by_cases h6 : c = '\x0c'
    · subst h6; exact psb_ser_esc fuel _ 'f' cs rest (by decide) (by decide) hfuel ih
    by_cases h7 : c = '\r'
    · subst h7; exact psb_ser_esc fuel _ 'r' cs rest (by decide) (by decide) hfuel ih
    by_cases h8 : c.toNat < 0x20
    · have hesc : escChar c
          = ['\x5c', 'u', '0', '0', hexChar (c.toNat / 16), hexChar (c.toNat % 16)] := by
        rw [escChar, if_neg h1, if_neg h2, if_neg h3, if_neg h4, if_neg h5, if_neg h6,
          if_neg h7, if_pos h8]
      have hshape : serStrBody (c :: cs) ++ '"' :: rest
          = '\x5c' :: 'u' :: '0' :: '0' :: hexChar (c.toNat / 16) :: hexChar (c.toNat % 16) ::
            (serStrBody cs ++ '"' :: rest) := by
        rw [serStrBody, hesc]; simp
      have hlen : (serStrBody cs ++ '"' :: rest).length + 6 ≤ fuel := by
        rw [hshape] at hfuel; simp only [List.length_cons] at hfuel; omega
      obtain ⟨f, rfl⟩ : ∃ f, fuel = f + 1 := ⟨fuel - 1, by omega⟩
      have hchar : Char.ofNat (c.toNat / 16 * 16 + c.toNat % 16) = c := by
        rw [show c.toNat / 16 * 16 + c.toNat % 16 = c.toNat from by omega, Char.ofNat_toNat]
      rw [hshape, psb_u f _ _ (c.toNat / 16) (c.toNat % 16) _
        (hexVal_hexChar _ (by omega)) (hexVal_hexChar _ (by omega)) (by omega) (by omega),
        hchar, ih rest f (by omega)]
      rfl
    · have hesc : escChar c = [c] := by
        rw [escChar, if_neg h1, if_neg h2, if_neg h3, if_neg h4, if_neg h5, if_neg h6,
          if_neg h7, if_neg h8]
      have hshape : serStrBody (c :: cs) ++ '"' :: rest
          = c :: (serStrBody cs ++ '"' :: rest) := by
        rw [serStrBody, hesc]; simp
      have hlen : (serStrBody cs ++ '"' :: rest).length + 1 ≤ fuel := by
        rw [hshape] at hfuel; simp only [List.length_cons] at hfuel; omega
      obtain ⟨f, rfl⟩ : ∃ f, fuel = f + 1 := ⟨fuel - 1, by omega⟩
      rw [hshape, psb_raw f c _ h1 h2 h8, ih rest f (by omega)]
      rfl


theorem skipWs_cons (c : Char) (t : Str) (h : isJsonWs c = false) :
    skipWs (c :: t) = c :: t := by
  simp [skipWs, List.dropWhile_cons, h]

theorem isJsonWs_lt (c : Char) (h : ' ' < c) : isJsonWs c = false := by
  have h1 : ¬ (c = ' ') := by intro hc; subst hc; exact lt_irrefl _ h
  have h2 : ¬ (c = '\t') := by intro hc; subst hc; exact absurd h (by decide)
  have h3 : ¬ (c = '\n') := by intro hc; subst hc; exact absurd h (by decide)
  have h4 : ¬ (c = '\r') := by intro hc; subst hc; exact absurd h (by decide)
  simp [isJsonWs, h1, h2, h3, h4]

theorem serJson_shape (v : Json) :
    ∃ c0 t0, serJson v = c0 :: t0 ∧ isJsonWs c0 = false ∧ c0 ≠ ']' := by
  cases v with
  | null => exact ⟨'n', _, rfl, by decide, by decide⟩
  | bool b =>
    cases b
    · exact ⟨'f', _, rfl, by decide, by decide⟩
    · exact ⟨'t', _, rfl, by decide, by decide⟩
  | num n =>
    show ∃ c0 t0, serInt n = c0 :: t0 ∧ isJsonWs c0 = false ∧ c0 ≠ ']'
    rw [serInt]
    split
    · exact ⟨'-', _, rfl, by decide, by decide⟩
    · obtain ⟨c0, cs0, hd⟩ := List.exists_cons_of_ne_nil (natDigits_ne_nil n.toNat)
      have hdig := natDigits_all_digit n.toNat c0 (by rw [hd]; simp)
      refine ⟨c0, cs0, hd, isJsonWs_lt c0 (lt_of_lt_of_le (by decide) hdig.1), ?_⟩
      intro h
      subst h
      exact absurd hdig.2 (by decide)
  | str s => exact ⟨'"', _, rfl, by decide, by decide⟩
  | arr a => exact ⟨'[', _, rfl, by decide, by decide⟩
  | obj o => exact ⟨'{', _, rfl, by decide, by decide⟩

theorem skipWs_serJson (v : Json) (t : Str) :
    skipWs (serJson v ++ t) = serJson v ++ t := by
  obtain ⟨c0, t0, hser, hws, -⟩ := serJson_shape v
  rw [hser, List.cons_append, skipWs_cons _ _ hws]

theorem serJson_len_pos (v : Json) : 1 ≤ (serJson v).length := by
  obtain ⟨c, t, h, -, -⟩ := serJson_shape v
  rw [h]
  simp

theorem needV_pos (v : Json) : 1 ≤ needV v := by
  cases v with
  | arr a => cases a <;> simp [needV]
  | obj o => cases o <;> simp [needV]
  | null => simp [needV]
  | bool b => simp [needV]
  | num n => simp [needV]
  | str s => simp [needV]

theorem needE_pos (a : JArr) : 1 ≤ needE a := by
  cases a <;> simp [needE]

theorem needM_pos (o : JObj) : 1 ≤ needM o := by
  cases o <;> simp [needM]

mutual
theorem needV_le : (v : Json) → needV v ≤ (serJson v).length
  | .null => by simp [needV, serJson]
  | .bool b => by cases b <;> decide
  | .num n => by
    show 1 ≤ (serInt n).length
    rw [serInt]
    split
    · simp
    · have h := natDigits_ne_nil n.toNat
      cases hd : natDigits n.toNat with
      | nil => exact absurd hd h
      | cons a t => simp [hd]
  | .str s => by
    show 1 ≤ ('"' :: serStrBody s ++ ['"']).length
    simp
  | .arr .nil => by simp [needV, serJson, serArr]
  | .arr (.cons v tl) => by
    have h := needE_le (.cons v tl)
    show 1 + needE (.cons v tl) ≤ ('[' :: serArr (.cons v tl) ++ [']']).length
    simp only [List.cons_append, List.length_cons, List.length_append, List.length_nil]
    omega
  | .obj .nil => by simp [needV, serJson, serObj]
  | .obj (.cons k v tl) => by
    have h := needM_le (.cons k v tl)
    show 1 + needM (.cons k v tl) ≤ ('{' :: serObj (.cons k v tl) ++ ['}']).length
    simp only [List.cons_append, List.length_cons, List.length_append, List.length_nil]
    omega
theorem needE_le : (a : JArr) → needE a ≤ (serArr a).length + 1
  | .nil => by simp [needE, serArr]
  | .cons v .nil => by
    have h1 := needV_le v
    have h2 := serJson_len_pos v
    show 1 + max (needV v) (needE .nil) ≤ (serJson v).length + 1
    have h3 : needE JArr.nil = 1 := rfl
    rw [h3]
    have h4 := Nat.max_le.mpr ⟨h1, h2⟩
    omega
  | .cons v (.cons v2 tl2) => by
    have h1 := needV_le v
    have h2 := serJson_len_pos v
    have h3 := needE_le (.cons v2 tl2)
    show 1 + max (needV v) (needE (.cons v2 tl2))
      ≤ (serJson v ++ ',' :: serArr (.cons v2 tl2)).length + 1
    simp only [List.length_append, List.length_cons]
    have h4 : max (needV v) (needE (.cons v2 tl2))
        ≤ (serJson v).length + (serArr (.cons v2 tl2)).length + 1 :=
      Nat.max_le.mpr ⟨by omega, by omega⟩
    omega
theorem needM_le : (o : JObj) → needM o ≤ (serObj o).length + 1
  | .nil => by simp [needM, serObj]
  | .cons k v .nil => by
    have h1 := needV_le v
    show 1 + max (needV v) (needM .nil)
      ≤ ('"' :: serStrBody k ++ '"' :: ':' :: serJson v).length + 1
    have h3 : needM JObj.nil = 1 := rfl
    rw [h3]
    simp only [List.length_cons, List.length_append]
    have h4 : max (needV v) 1 ≤ (serJson v).length :=
      Nat.max_le.mpr ⟨h1, serJson_len_pos v⟩
    omega
  | .cons k v (.cons k2 v2 tl2) => by
    have h1 := needV_le v
    have h2 := serJson_len_pos v
    have h3 := needM_le (.cons k2 v2 tl2)
    show 1 + max (needV v) (needM (.cons k2 v2 tl2))
      ≤ (('"' :: serStrBody k ++ '"' :: ':' :: serJson v)
          ++ ',' :: serObj (.cons k2 v2 tl2)).length + 1
    simp only [List.length_append, List.length_cons]
    have h4 : max (needV v) (needM (.cons k2 v2 tl2))
        ≤ (serJson v).length + (serObj (.cons k2 v2 tl2)).length + 1 :=
      Nat.max_le.mpr ⟨by omega, by omega⟩
    omega
end


theorem parseValue_null_step (f : Nat) (rest : Str) :
    parseValue (f + 1) ('n' :: 'u' :: 'l' :: 'l' :: rest) = some (.null, rest) := rfl

theorem parseValue_true_step (f : Nat) (rest : Str) :
    parseValue (f + 1) ('t' :: 'r' :: 'u' :: 'e' :: rest) = some (.bool true, rest) := rfl

theorem parseValue_false_step (f : Nat) (rest : Str) :
    parseValue (f + 1) ('f' :: 'a' :: 'l' :: 's' :: 'e' :: rest)
      = some (.bool false, rest) := rfl

theorem parseValue_str_step (f : Nat) (X : Str) :
    parseValue (f + 1) ('"' :: X)
      = (parseStrBody (X.length + 1) X).map (fun p => (Json.str p.1, p.2)) := rfl

theorem parseValue_arrnil_step (f : Nat) (rest : Str) :
    parseValue (f + 1) ('[' :: ']' :: rest) = some (.arr .nil, rest) := rfl

theorem parseValue_objnil_step (f : Nat) (rest : Str) :
    parseValue (f + 1) ('{' :: '}' :: rest) = some (.obj .nil, rest) := rfl

theorem parseValue_lbrack_step (f : Nat) (X : Str) :
    parseValue (f + 1) ('[' :: X)
      = (match skipWs X with
         | ']' :: r => some (.arr .nil, r)
         | s1 => (parseElems f s1).map (fun p => (Json.arr p.1, p.2))) := rfl

theorem parseValue_lbrace_step (f : Nat) (X : Str) :
    parseValue (f + 1) ('{' :: X)
      = (match skipWs X with
         | '}' :: r => some (.obj .nil, r)
         | s1 => (parseMems f s1).map (fun p => (Json.obj p.1, p.2))) := rfl

theorem parseValue_arr_step (f : Nat) (X : Str) (c0 : Char) (Z : Str)
    (hskip : skipWs X = c0 :: Z) (hne : c0 ≠ ']') :
    parseValue (f + 1) ('[' :: X)
      = (parseElems f (c0 :: Z)).map (fun p => (Json.arr p.1, p.2)) := by
  rw [parseValue_lbrack_step, hskip]
  split
  · rename_i heq
    injection heq with h1 h2
    exact absurd h1 hne
  · rfl

theorem parseValue_num_step (f : Nat) (c0 : Char) (t : Str)
    (h1 : c0 ≠ 'n') (h2 : c0 ≠ 't') (h3 : c0 ≠ 'f') (h4 : c0 ≠ '"') (h5 : c0 ≠ '[')
    (h6 : c0 ≠ '{') (h7 : isJsonWs c0 = false)
    (h8 : c0 = '-' ∨ ('0' ≤ c0 ∧ c0 ≤ '9')) :
    parseValue (f + 1) (c0 :: t) = parseNum (c0 :: t) := by
  simp only [parseValue, skipWs_cons c0 t h7]
  rw [if_neg h1, if_neg h2, if_neg h3, if_neg h4, if_neg h5, if_neg h6, if_pos h8]


theorem parseMems_step (f : Nat) (R : Str) :
    parseMems (f + 1) ('"' :: R)
      = (match parseStrBody (R.length + 1) R with
         | none => none
         | some (k, r1) =>
           match skipWs r1 with
           | ':' :: r2 =>
             match parseValue f r2 with
             | none => none
             | some (v, r3) =>
               match skipWs r3 with
               | ',' :: r4 => (parseMems f r4).map (fun p => (JObj.cons k v p.1, p.2))
               | '}' :: r4 => some (.cons k v .nil, r4)
               | _ => none
           | _ => none) := rfl

theorem parse_ser (fuel : Nat) :
    (∀ v rest, wfJson v = true → needV v ≤ fuel → restOk rest →
      parseValue fuel (serJson v ++ rest) = some (v, rest)) ∧
    (∀ a rest, a ≠ JArr.nil → wfArr a = true → needE a ≤ fuel →
      parseElems fuel (serArr a ++ ']' :: rest) = some (a, rest)) ∧
    (∀ o rest, o ≠ JObj.nil → wfObj o = true → needM o ≤ fuel →
      parseMems fuel (serObj o ++ '}' :: rest) = some (o, rest)) := by
  induction fuel with
  | zero =>
    refine ⟨fun v rest _ h _ => absurd h (by have := needV_pos v; omega),
      fun a rest _ _ h => absurd h (by have := needE_pos a; omega),
      fun o rest _ _ h => absurd h (by have := needM_pos o; omega)⟩
  | succ f ih =>
    obtain ⟨ihV, ihE, ihM⟩ := ih
    refine ⟨?_, ?_, ?_⟩
    · intro v rest hwf hneed hrest
      cases v with
      | null => exact parseValue_null_step f rest
      | bool b =>
        cases b
        · exact parseValue_false_step f rest
        · exact parseValue_true_step f rest
      | num n =>
        have hcls : ∃ c0 t0, serInt n = c0 :: t0 ∧ (c0 = '-' ∨ ('0' ≤ c0 ∧ c0 ≤ '9')) := by
          rw [serInt]
          split
          · exact ⟨'-', _, rfl, Or.inl rfl⟩
          · obtain ⟨c0, cs0, hd⟩ := List.exists_cons_of_ne_nil (natDigits_ne_nil n.toNat)
            exact ⟨c0, cs0, hd, Or.inr (natDigits_all_digit _ c0 (by rw [hd]; simp))⟩
        obtain ⟨c0, t0, hser, hc0⟩ := hcls
        have hnes : c0 ≠ 'n' ∧ c0 ≠ 't' ∧ c0 ≠ 'f' ∧ c0 ≠ '"' ∧ c0 ≠ '[' ∧ c0 ≠ '{'
            ∧ isJsonWs c0 = false := by
          rcases hc0 with rfl | ⟨hlo, hhi⟩
          · exact ⟨by decide, by decide, by decide, by decide, by decide, by decide, by decide⟩
          · refine ⟨?_, ?_, ?_, ?_, ?_, ?_, isJsonWs_lt c0 (lt_of_lt_of_le (by decide) hlo)⟩
            · intro h; subst h; exact absurd hhi (by decide)
            · intro h; subst h; exact absurd hhi (by decide)
            · intro h; subst h; exact absurd hhi (by decide)
            · intro h; subst h; exact absurd hlo (by decide)
            · intro h; subst h; exact absurd hhi (by decide)
            · intro h; subst h; exact absurd hhi (by decide)
        obtain ⟨h1, h2, h3, h4, h5, h6, h7⟩ := hnes
        have hwfn : -(2 ^ 63) ≤ n ∧ n < 2 ^ 64 := by simpa [wfJson] using hwf
        have hgoal : serJson (.num n) ++ rest = c0 :: (t0 ++ rest) := by
          show serInt n ++ rest = c0 :: (t0 ++ rest)
          rw [hser, List.cons_append]
        rw [hgoal, parseValue_num_step f c0 (t0 ++ rest) h1 h2 h3 h4 h5 h6 h7 hc0,
          ← List.cons_append, ← hser]
        exact parseNum_ser n hwfn.1 hwfn.2 rest hrest
      | str s =>
        have hshape : serJson (.str s) ++ rest = '"' :: (serStrBody s ++ '"' :: rest) := by
          show ('"' :: serStrBody s ++ ['"']) ++ rest = _
          simp
        rw [hshape, parseValue_str_step,
          parseStrBody_ser s rest _ (Nat.le_succ _)]
        rfl
      | arr a =>
        cases a with
        | nil => exact parseValue_arrnil_step f rest
        | cons v tl =>
          have hwfa : wfArr (.cons v tl) = true := by simpa [wfJson] using hwf
          have hneeda : needE (.cons v tl) ≤ f := by
            have h : needV (.arr (.cons v tl)) = 1 + needE (.cons v tl) := rfl
            rw [h] at hneed
            omega
          have hx : serJson (.arr (.cons v tl)) ++ rest
              = '[' :: (serArr (.cons v tl) ++ ']' :: rest) := by
            show ('[' :: serArr (.cons v tl) ++ [']']) ++ rest = _
            simp
          obtain ⟨c0, t0, hser0, hws0, hne0⟩ := serJson_shape v
          have hgen : ∃ W, serArr (.cons v tl) ++ ']' :: rest = serJson v ++ W := by
            cases tl with
            | nil => exact ⟨']' :: rest, rfl⟩
            | cons v2 tl2 =>
              refine ⟨',' :: (serArr (.cons v2 tl2) ++ ']' :: rest), ?_⟩
              show (serJson v ++ ',' :: serArr (.cons v2 tl2)) ++ ']' :: rest = _
              simp
          obtain ⟨W, hW⟩ := hgen
          have hskip : skipWs (serArr (.cons v tl) ++ ']' :: rest) = c0 :: (t0 ++ W) := by
            rw [hW, skipWs_serJson, hser0, List.cons_append]
          rw [hx, parseValue_arr_step f _ c0 (t0 ++ W) hskip hne0,
            show c0 :: (t0 ++ W) = serArr (.cons v tl) ++ ']' :: rest from by
              rw [hW, hser0, List.cons_append],
            ihE (.cons v tl) rest (fun h => JArr.noConfusion h) hwfa hneeda]
          rfl
      | obj o =>
        cases o with
        | nil => exact parseValue_objnil_step f rest
        | cons k v tl =>
          have hwfo : wfObj (.cons k v tl) = true := by simpa [wfJson] using hwf
          have hneedo : needM (.cons k v tl) ≤ f := by
            have h : needV (.obj (.cons k v tl)) = 1 + needM (.cons k v tl) := rfl
            rw [h] at hneed
            omega
          have hx : serJson (.obj (.cons k v tl)) ++ rest
              = '{' :: (serObj (.cons k v tl) ++ '}' :: rest) := by
            show ('{' :: serObj (.cons k v tl) ++ ['}']) ++ rest = _
            simp
          have hO : ∃ R, serObj (.cons k v tl) ++ '}' :: rest = '"' :: R := by
            cases tl with
            | nil =>
              refine ⟨(serStrBody k ++ '"' :: ':' :: serJson v) ++ '}' :: rest, ?_⟩
              show ('"' :: (serStrBody k ++ '"' :: ':' :: serJson v)) ++ '}' :: rest = _
              simp
            | cons k2 v2 tl2 =>
              refine ⟨(serStrBody k ++ '"' :: ':' :: serJson v)
                ++ ',' :: serObj (.cons k2 v2 tl2) ++ '}' :: rest, ?_⟩
              show (('"' :: (serStrBody k ++ '"' :: ':' :: serJson v))
                ++ ',' :: serObj (.cons k2 v2 tl2)) ++ '}' :: rest = _
              simp
          obtain ⟨R, hR⟩ := hO
          have hskip : skipWs (serObj (.cons k v tl) ++ '}' :: rest) = '"' :: R := by
            rw [hR, skipWs_cons _ _ (by decide)]
          rw [hx, parseValue_lbrace_step, hskip]
          show (parseMems f ('"' :: R)).map (fun p => (Json.obj p.1, p.2))
            = some (.obj (.cons k v tl), rest)
          rw [← hR, ihM (.cons k v tl) rest (fun h => JObj.noConfusion h) hwfo hneedo]
          rfl
    · intro a rest hnil hwf hneed
      cases a with
      | nil => exact absurd rfl hnil
      | cons v tl =>
        have hwfv : wfJson v = true ∧ wfArr tl = true := by simpa [wfArr] using hwf
        have hneedv : needV v ≤ f ∧ needE tl ≤ f := by
          have h : needE (.cons v tl) = 1 + max (needV v) (needE tl) := rfl
          rw [h] at hneed
          have h1 := Nat.le_max_left (needV v) (needE tl)
          have h2 := Nat.le_max_right (needV v) (needE tl)
          omega
        cases tl with
        | nil =>
          rw [show serArr (.cons v .nil) = serJson v from rfl]
          simp only [parseElems]
          rw [ihV v (']' :: rest) hwfv.1 hneedv.1
            (Or.inr ⟨']', rest, rfl, Or.inr (Or.inl rfl)⟩)]
          rfl
        | cons v2 tl2 =>
          have hsh : serArr (.cons v (.cons v2 tl2)) ++ ']' :: rest
              = serJson v ++ (',' :: (serArr (.cons v2 tl2) ++ ']' :: rest)) := by
            show (serJson v ++ ',' :: serArr (.cons v2 tl2)) ++ ']' :: rest = _
            simp
          rw [hsh]
          simp only [parseElems]
          rw [ihV v _ hwfv.1 hneedv.1 (Or.inr ⟨',', _, rfl, Or.inl rfl⟩)]
          show (parseElems f (serArr (.cons v2 tl2) ++ ']' :: rest)).map
            (fun p => (JArr.cons v p.1, p.2)) = some (.cons v (.cons v2 tl2), rest)
          rw [ihE (.cons v2 tl2) rest (fun h => JArr.noConfusion h) hwfv.2 hneedv.2]
          rfl
    · intro o rest hnil hwf hneed
      cases o with
      | nil => exact absurd rfl hnil
      | cons k v tl =>
        have hwfv : wfJson v = true ∧ wfObj tl = true := by simpa [wfObj] using hwf
        have hneedv : needV v ≤ f ∧ needM tl ≤ f := by
          have h : needM (.cons k v tl) = 1 + max (needV v) (needM tl) := rfl
          rw [h] at hneed
          have h1 := Nat.le_max_left (needV v) (needM tl)
          have h2 := Nat.le_max_right (needV v) (needM tl)
          omega
        cases tl with
        | nil =>
          have hsh : serObj (.cons k v .nil) ++ '}' :: rest
              = '"' :: (serStrBody k ++ '"' :: (':' :: (serJson v ++ '}' :: rest))) := by
            show ('"' :: (serStrBody k ++ '"' :: ':' :: serJson v)) ++ '}' :: rest = _
            simp
          rw [hsh, parseMems_step,
            parseStrBody_ser k (':' :: (serJson v ++ '}' :: rest)) _ (Nat.le_succ _)]
          show (match skipWs (':' :: (serJson v ++ '}' :: rest)) with
            | ':' :: r2 =>
              match parseValue f r2 with
              | none => none
              | some (v, r3) =>
                match skipWs r3 with
                | ',' :: r4 => (parseMems f r4).map (fun p => (JObj.cons k v p.1, p.2))
                | '}' :: r4 => some (.cons k v .nil, r4)
                | _ => none
            | _ => none) = some (.cons k v .nil, rest)
          rw [skipWs_cons ':' _ (by decide)]
          show (match parseValue f (serJson v ++ '}' :: rest) with
            | none => none
            | some (v, r3) =>
              match skipWs r3 with
              | ',' :: r4 => (parseMems f r4).map (fun p => (JObj.cons k v p.1, p.2))
              | '}' :: r4 => some (.cons k v .nil, r4)
              | _ => none) = some (.cons k v .nil, rest)
          rw [ihV v ('}' :: rest) hwfv.1 hneedv.1
            (Or.inr ⟨'}', rest, rfl, Or.inr (Or.inr rfl)⟩)]
          rfl
        | cons k2 v2 tl2 =>
          have hsh : serObj (.cons k v (.cons k2 v2 tl2)) ++ '}' :: rest
              = '"' :: (serStrBody k ++ '"' :: (':' :: (serJson v
                ++ ',' :: (serObj (.cons k2 v2 tl2) ++ '}' :: rest)))) := by
            show (('"' :: (serStrBody k ++ '"' :: ':' :: serJson v))
              ++ ',' :: serObj (.cons k2 v2 tl2)) ++ '}' :: rest = _
            simp
          rw [hsh, parseMems_step,
            parseStrBody_ser k (':' :: (serJson v
              ++ ',' :: (serObj (.cons k2 v2 tl2) ++ '}' :: rest))) _ (Nat.le_succ _)]
          show (match skipWs (':' :: (serJson v
              ++ ',' :: (serObj (.cons k2 v2 tl2) ++ '}' :: rest))) with
            | ':' :: r2 =>
              match parseValue f r2 with
              | none => none
              | some (v, r3) =>
                match skipWs r3 with
                | ',' :: r4 => (parseMems f r4).map (fun p => (JObj.cons k v p.1, p.2))
                | '}' :: r4 => some (.cons k v .nil, r4)
                | _ => none
            | _ => none) = some (.cons k v (.cons k2 v2 tl2), rest)
          rw [skipWs_cons ':' _ (by decide)]
          show (match parseValue f (serJson v
              ++ ',' :: (serObj (.cons k2 v2 tl2) ++ '}' :: rest)) with
            | none => none
            | some (v, r3) =>
              match skipWs r3 with
              | ',' :: r4 => (parseMems f r4).map (fun p => (JObj.cons k v p.1, p.2))
              | '}' :: r4 => some (.cons k v .nil, r4)
              | _ => none) = some (.cons k v (.cons k2 v2 tl2), rest)
          rw [ihV v _ hwfv.1 hneedv.1 (Or.inr ⟨',', _, rfl, Or.inl rfl⟩)]
          show (parseMems f (serObj (.cons k2 v2 tl2) ++ '}' :: rest)).map
            (fun p => (JObj.cons k v p.1, p.2)) = some (.cons k v (.cons k2 v2 tl2), rest)
          rw [ihM (.cons k2 v2 tl2) rest (fun h => JObj.noConfusion h) hwfv.2 hneedv.2]
          rfl


theorem fromStr_ser (v : Json) (hwf : wfJson v = true) : fromStr (serJson v) = some v := by
  rw [fromStr]
  have h := (parse_ser ((serJson v).length + 1)).1 v [] hwf
    (by have := needV_le v; omega) (Or.inl rfl)
  rw [List.append_nil] at h
  rw [h]
  rfl

theorem asI32List_foldr (xs : List Int)
    (h : xs.all (fun x => decide (-(2 ^ 31) ≤ x ∧ x < 2 ^ 31)) = true) :
    asI32List (xs.foldr (fun x a => .cons (.num x) a) .nil) = some xs := by
  induction xs with
  | nil => rfl
  | cons x t ih =>
    simp only [List.all_cons, Bool.and_eq_true, decide_eq_true_eq] at h
    rw [List.foldr_cons]
    show (if -(2 ^ 31) ≤ x ∧ x < 2 ^ 31
      then (asI32List (t.foldr (fun x a => .cons (.num x) a) .nil)).map (x :: ·)
      else none) = some (x :: t)
    rw [if_pos h.1, ih h.2]
    rfl

theorem decodeAction_encode (a : AgentAction) (h : wfAct a = true) :
    decodeAction (encodeAction a) = some a := by
  cases a with
  | WriteFile p c => rfl
  | ExecShell c x => rfl
  | QueryMemory q st => cases st <;> rfl
  | CommitOverlay m => rfl
  | CallTool n args => rfl
  | UseSkill n xs =>
    have hx : xs.all (fun x => decide (-(2 ^ 31) ≤ x ∧ x < 2 ^ 31)) = true := by
      simpa [wfAct] using h
    show (match asI32List (xs.foldr (fun x a => .cons (.num x) a) .nil) with
      | some ys => some (AgentAction.UseSkill n ys)
      | none => none) = some (AgentAction.UseSkill n xs)
    rw [asI32List_foldr xs hx]
  | QueryDatalog s => rfl
  | Answer t => rfl

theorem decodeActionList_foldr (acts : List AgentAction) (h : actsWF acts = true) :
    decodeActionList (acts.foldr (fun a t => .cons (encodeAction a) t) .nil) = some acts := by
  induction acts with
  | nil => rfl
  | cons a t ih =>
    have hh : wfAct a = true ∧ actsWF t = true := by
      simpa [actsWF, List.all_cons] using h
    rw [List.foldr_cons]
    show (match decodeAction (encodeAction a) with
      | some x => (decodeActionList (t.foldr (fun a t => .cons (encodeAction a) t) .nil)).map
          (x :: ·)
      | none => none) = some (a :: t)
    rw [decodeAction_encode a hh.1, ih hh.2]
    rfl

theorem wfArr_i32_foldr (xs : List Int)
    (h : xs.all (fun x => decide (-(2 ^ 31) ≤ x ∧ x < 2 ^ 31)) = true) :
    wfArr (xs.foldr (fun x a => .cons (.num x) a) .nil) = true := by
  induction xs with
  | nil => rfl
  | cons x t ih =>
    simp only [List.all_cons, Bool.and_eq_true, decide_eq_true_eq] at h
    rw [List.foldr_cons]
    show (wfJson (.num x) && wfArr (t.foldr (fun x a => .cons (.num x) a) .nil)) = true
    rw [ih h.2]
    have : wfJson (.num x) = true := by
      show decide (-(2 ^ 63) ≤ x ∧ x < 2 ^ 64) = true
      have := h.1
      simp only [decide_eq_true_eq]
      omega
    rw [this]
    rfl

theorem wfJson_encodeAction (a : AgentAction) (h : wfAct a = true) :
    wfJson (encodeAction a) = true := by
  cases a with
  | WriteFile p c => rfl
  | ExecShell c x => rfl
  | QueryMemory q st => cases st <;> rfl
  | CommitOverlay m => rfl
  | CallTool n args =>
    have hx : wfJson args = true := by simpa [wfAct] using h
    show wfObj (.cons "directive".toList (.str "CallTool".toList)
      (.cons "tool_name".toList (.str n) (.cons "arguments".toList args .nil))) = true
    simp [wfObj, wfJson, hx]
  | UseSkill n xs =>
    have hx : xs.all (fun x => decide (-(2 ^ 31) ≤ x ∧ x < 2 ^ 31)) = true := by
      simpa [wfAct] using h
    show wfObj (.cons "directive".toList (.str "UseSkill".toList)
      (.cons "name".toList (.str n)
        (.cons "args".toList (.arr (xs.foldr (fun x a => .cons (.num x) a) .nil)) .nil))) = true
    simp [wfObj, wfJson, wfArr_i32_foldr xs hx]
  | QueryDatalog s => rfl
  | Answer t => rfl

theorem wfJson_encodeActs (acts : List AgentAction) (h : actsWF acts = true) :
    wfJson (encodeActs acts) = true := by
  show wfArr (acts.foldr (fun a t => .cons (encodeAction a) t) .nil) = true
  induction acts with
  | nil => rfl
  | cons a t ih =>
    have hh : wfAct a = true ∧ actsWF t = true := by
      simpa [actsWF, List.all_cons] using h
    rw [List.foldr_cons]
    show (wfJson (encodeAction a)
      && wfArr (t.foldr (fun a t => .cons (encodeAction a) t) .nil)) = true
    rw [wfJson_encodeAction a hh.1, ih hh.2]
    rfl

theorem fromStrVec_render (acts : List AgentAction) (h : actsWF acts = true) :
    fromStrVec (serJson (encodeActs acts)) = some acts := by
  rw [fromStrVec, fromStr_ser _ (wfJson_encodeActs acts h)]
  show (match encodeActs acts with
    | .arr a => decodeActionList a
    | _ => none) = some acts
  rw [encodeActs]
  exact decodeActionList_foldr acts h


theorem take_len_add (u w : Str) (m : Nat) : (u ++ w).take (u.length + m) = u ++ w.take m := by
  induction u with
  | nil => simp
  | cons c t ih =>
    rw [List.cons_append, show (c :: t).length + m = (t.length + m) + 1 from by
      simp [List.length_cons]; omega]
    rw [List.take_succ_cons, ih, List.cons_append]

theorem drop_len_add (u w : Str) (m : Nat) : (u ++ w).drop (u.length + m) = w.drop m := by
  induction u with
  | nil => simp
  | cons c t ih =>
    rw [List.cons_append, show (c :: t).length + m = (t.length + m) + 1 from by
      simp [List.length_cons]; omega]
    rw [List.drop_succ_cons, ih]

theorem findSub_cons (c : Char) (t n : Str) :
    findSub (c :: t) n
      = if n.isPrefixOf (c :: t) then some 0 else (findSub t n).map (· + 1) := rfl

theorem hasSub_cons_false (c : Char) (t n : Str) (h : hasSub (c :: t) n = false) :
    n.isPrefixOf (c :: t) = false ∧ hasSub t n = false := by
  rw [hasSub, findSub_cons] at h
  by_cases hp : n.isPrefixOf (c :: t)
  · rw [if_pos (by simp [hp])] at h
    simp at h
  · rw [if_neg (by simp [hp])] at h
    refine ⟨Bool.eq_false_iff.mpr hp, ?_⟩
    rw [hasSub]
    cases hfind : findSub t n with
    | none => rfl
    | some k => rw [hfind] at h; simp at h

theorem findSub_bt_append (u w : Str) (hu : hasSub u ['`', '`', '`'] = false) :
    findSub (u ++ '\n' :: w) ['`', '`', '`']
      = (findSub ('\n' :: w) ['`', '`', '`']).map (· + u.length) := by
  induction u with
  | nil =>
    simp only [List.nil_append, List.length_nil]
    cases hfind : findSub ('\n' :: w) ['`', '`', '`'] <;> simp [hfind]
  | cons c t ih =>
    obtain ⟨hp, ht⟩ := hasSub_cons_false c t _ hu
    rw [List.cons_append, findSub_cons]
    have hnp : (['`', '`', '`'] : Str).isPrefixOf (c :: (t ++ '\n' :: w)) = false := by
      match t with
      | [] => simp [List.isPrefixOf]
      | [d] => simp [List.isPrefixOf]
      | d :: e :: t3 => simpa [List.isPrefixOf] using hp
    rw [if_neg (by simp [hnp]), ih ht]
    cases hfind : findSub ('\n' :: w) ['`', '`', '`'] with
    | none => simp [hfind]
    | some k =>
      simp only [hfind, Option.map_some, Option.map_map, Function.comp, List.length_cons]
      try congr 1
      try omega

theorem rustTrim_wrap (b : Str) (c0 cl : Char) (t0 tl : Str)
    (h0 : b = c0 :: t0) (hw0 : isRustWs c0 = false)
    (hl : b.reverse = cl :: tl) (hwl : isRustWs cl = false) :
    rustTrim ('\n' :: b ++ ['\n']) = b := by
  rw [rustTrim]
  have h1 : (('\n' :: b) ++ ['\n']).dropWhile isRustWs = b ++ ['\n'] := by
    rw [List.cons_append, List.dropWhile_cons, if_pos (by decide)]
    rw [h0, List.cons_append, List.dropWhile_cons, if_neg (by simp [hw0])]
  rw [h1]
  have h2 : (b ++ ['\n']).reverse = '\n' :: b.reverse := by simp
  rw [h2, List.dropWhile_cons, if_pos (by decide)]
  rw [hl, List.dropWhile_cons, if_neg (by simp [hwl]), ← hl, List.reverse_reverse]


theorem scanJsonBlocksF_nil (f : Nat) : scanJsonBlocksF f [] = [] := by
  cases f <;> rfl

theorem scanJsonBlocks_render (acts : List AgentAction) (hne : acts ≠ [])
    (hwa : actsWF acts = true)
    (hbt : hasSub (serJson (encodeActs acts)) "```".toList = false) :
    scanJsonBlocks (renderActs acts) = acts := by
  obtain ⟨a0, t0, rfl⟩ : ∃ a0 t0, acts = a0 :: t0 := by
    cases acts with
    | nil => exact absurd rfl hne
    | cons a t => exact ⟨a, t, rfl⟩
  obtain ⟨v, tl, hJ⟩ : ∃ v tl, encodeActs (a0 :: t0) = .arr (.cons v tl) :=
    ⟨encodeAction a0, _, rfl⟩
  have hvec := fromStrVec_render (a0 :: t0) hwa
  have h0 : findSub (renderActs (a0 :: t0)) "```json".toList = some 0 := rfl
  have h2 : (renderActs (a0 :: t0)).drop (0 + 7)
      = ('\n' :: serJson (encodeActs (a0 :: t0))) ++ ('\n' :: ['`', '`', '`']) := rfl
  have hnone : findSub (serJson (encodeActs (a0 :: t0))) ['`', '`', '`'] = none := by
    have hbt2 : hasSub (serJson (encodeActs (a0 :: t0))) ['`', '`', '`'] = false := hbt
    rw [hasSub] at hbt2
    cases hx : findSub (serJson (encodeActs (a0 :: t0))) ['`', '`', '`'] with
    | none => rfl
    | some k => rw [hx] at hbt2; simp at hbt2
  have hbody_bt : hasSub ('\n' :: serJson (encodeActs (a0 :: t0))) ['`', '`', '`']
      = false := by
    rw [hasSub, findSub_cons, if_neg (by simp [List.isPrefixOf]), hnone]
    rfl
  have h4 : findSub (('\n' :: serJson (encodeActs (a0 :: t0))) ++ ('\n' :: ['`', '`', '`']))
      ['`', '`', '`'] = some ((serJson (encodeActs (a0 :: t0))).length + 2) := by
    rw [findSub_bt_append _ _ hbody_bt,
      show findSub ('\n' :: ['`', '`', '`']) ['`', '`', '`'] = some 1 from rfl]
    show some (1 + ('\n' :: serJson (encodeActs (a0 :: t0))).length)
      = some ((serJson (encodeActs (a0 :: t0))).length + 2)
    rw [List.length_cons]
    congr 1
    omega
  have htake : (('\n' :: serJson (encodeActs (a0 :: t0))) ++ ('\n' :: ['`', '`', '`'])).take
      ((serJson (encodeActs (a0 :: t0))).length + 2)
      = ('\n' :: serJson (encodeActs (a0 :: t0))) ++ ['\n'] := by
    rw [show (serJson (encodeActs (a0 :: t0))).length + 2
        = ('\n' :: serJson (encodeActs (a0 :: t0))).length + 1 from by
      simp only [List.length_cons]]
    rw [take_len_add]
    rfl
  have htrim : rustTrim (('\n' :: serJson (encodeActs (a0 :: t0))) ++ ['\n'])
      = serJson (encodeActs (a0 :: t0)) := by
    rw [hJ]
    refine rustTrim_wrap _ '[' ']' (serArr (.cons v tl) ++ [']'])
      ((serArr (.cons v tl)).reverse ++ ['[']) rfl (by decide) ?_ (by decide)
    show (('[' :: serArr (.cons v tl)) ++ [']']).reverse = _
    simp
  have hdrop : (('\n' :: serJson (encodeActs (a0 :: t0))) ++ ('\n' :: ['`', '`', '`'])).drop
      ((serJson (encodeActs (a0 :: t0))).length + 2 + 3) = [] := by
    rw [show (serJson (encodeActs (a0 :: t0))).length + 2 + 3
        = ('\n' :: serJson (encodeActs (a0 :: t0))).length + 4 from by
      rw [List.length_cons]]
    rw [drop_len_add]
    rfl
  rw [scanJsonBlocks]
  generalize (renderActs (a0 :: t0)).length = f
  simp only [scanJsonBlocksF, h0]
  rw [show ("```".toList : Str) = ['`', '`', '`'] from rfl]
  simp only [h2, h4, htake, htrim, hvec, hdrop, scanJsonBlocksF_nil]
  simp


/-- Claim C6 (amended): for every non-empty action list whose integer payloads
are in range (`actsWF`) and whose serialized JSON array contains no triple
backtick, parsing the single-fenced rendering returns exactly the original
list: `parse_action (renderActs acts) = .ok acts`. -/
theorem parse_render_roundtrip (acts : List AgentAction) (hne : acts ≠ [])
    (hwa : actsWF acts = true)
    (hbt : hasSub (serJson (encodeActs acts)) "```".toList = false) :
    parse_action (renderActs acts) = .ok acts := by
  have hscan := scanJsonBlocks_render acts hne hwa hbt
  obtain ⟨a, t, rfl⟩ : ∃ a t, acts = a :: t := by
    cases acts with
    | nil => exact absurd rfl hne
    | cons a t => exact ⟨a, t, rfl⟩
  rw [parse_action]
  simp only [hscan, List.isEmpty_cons]
  simp

set_option maxRecDepth 40000

/-- Claim C6, counterexample: the empty list breaks the unrestricted
round-trip law: its rendering parses back to the terminal `Answer` fallback
carrying the whole rendering, not to `[]`. -/
theorem parse_render_empty_counterexample :
    parse_action (renderActs []) ≠ .ok [] := by decide

/-- Claim C6, witness: the amended round-trip applied to a two-action list
(a `WriteFile` and an `Answer`), hypotheses checked by `decide`. -/
theorem parse_render_roundtrip_witness :
    parse_action (renderActs
        [.WriteFile "src/main.rs".toList "fn main() \x7b\x7d".toList,
         .Answer "done".toList])
      = .ok [.WriteFile "src/main.rs".toList "fn main() \x7b\x7d".toList,
         .Answer "done".toList] :=
  parse_render_roundtrip
    [.WriteFile "src/main.rs".toList "fn main() \x7b\x7d".toList, .Answer "done".toList]
    (by decide) (by decide) (by decide)

end Sly
